import Mathlib

/-!
Shallow embedding of the prerequisite parser and cross-reference resolver of
`src/Scraping/disciplines.py` (Unicamp catalog scraper).

Strings are modelled as `List Char`; Python `str.split`, slicing and `in`
are modelled by executable Lean functions below.  Python dictionaries
(`dict[str, ...]`) are modelled as association lists with first-match lookup;
in-place mutation of discipline records is modelled by explicit state passing
over the whole two-level catalog structure.
-/

set_option maxRecDepth 4000

abbrev Str := List Char

def strToL (s : String) : Str := s.toList

/-- First-match lookup in an association list, modelling Python `dict.get`. -/
def alookup {α : Type} (k : Str) : List (Str × α) → Option α
  | [] => none
  | (k', v) :: rest => if k' = k then some v else alookup k rest

/-- `Requirement` TypedDict from the source: `code`, optional `partial`
(called `isPartial` here), optional `special`. -/
structure Requirement where
  code : Str
  isPartial : Option Bool
  special : Option Bool
deriving DecidableEq

/-- `Discipline` TypedDict from the source: `code`, `name`, `credits`,
optional `reqs`, optional `reqBy`, `syllabus`. -/
structure Discipline where
  code : Str
  name : Str
  credits : Int
  reqs : Option (List (List Requirement))
  reqBy : Option (List Str)
  syllabus : Str
deriving DecidableEq

/-- `is_discipline_code`: "Checks if code has format of discipline code."
The source checks only `len(code) == 5`. -/
def is_discipline_code (code : Str) : Bool := code.length == 5

/-- Python `raw[0] == '*'` guarded by nonemptiness, modelled via `head?`. -/
def headIsStar (raw : Str) : Bool := raw.head? == some '*'

/-- `create_requirement`: classify one token.  First branch: length-5 code.
Second branch: `*`-prefixed code (`raw[1:]` is a code and `raw[0] == '*'`).
Otherwise Python returns `None`. -/
def create_requirement (raw : Str) : Option Requirement :=
  if is_discipline_code raw then
    some { code := raw, isPartial := none, special := none }
  else if is_discipline_code (raw.drop 1) && headIsStar raw then
    some { code := raw.drop 1, isPartial := some true, special := none }
  else
    none

/-- Python indexing `raw[i]`, which raises `IndexError` past the end. -/
def char_at (raw : Str) (i : Nat) : Except String Char :=
  match raw.drop i with
  | [] => Except.error "IndexError"
  | c :: _ => Except.ok c

/-- `create_requirement` with Python evaluation order made explicit: the
`and` in `is_discipline_code(raw[1:]) and raw[0] == '*'` short-circuits, so
the indexing `raw[0]` is only evaluated when `raw[1:]` has length 5. -/
def create_requirement_checked (raw : Str) : Except String (Option Requirement) :=
  if is_discipline_code raw then
    Except.ok (some { code := raw, isPartial := none, special := none })
  else if is_discipline_code (raw.drop 1) then
    match char_at raw 0 with
    | Except.error e => Except.error e
    | Except.ok c =>
      if c == '*' then
        Except.ok (some { code := raw.drop 1, isPartial := some true, special := none })
      else
        Except.ok none
  else
    Except.ok none

/-- Does `pat` occur at the very start of `s`? -/
def leadsWith : Str → Str → Bool
  | [], _ => true
  | _ :: _, [] => false
  | c :: cs, d :: ds => c == d && leadsWith cs ds

/-- Worker for Python `str.split` with separator `c0 :: sr`:
leftmost-first, non-overlapping matches.  The `Nat` argument is the number
of already-matched separator characters still to be skipped (0 while
scanning), which keeps the recursion structural in the string. -/
def splitGo (c0 : Char) (sr : Str) : Nat → Str → List Str
  | Nat.succ _, [] => [[]]
  | Nat.succ k, _ :: rest => splitGo c0 sr k rest
  | 0, [] => [[]]
  | 0, c :: rest =>
    if leadsWith (c0 :: sr) (c :: rest) then
      [] :: splitGo c0 sr sr.length rest
    else
      match splitGo c0 sr 0 rest with
      | [] => [[c]]
      | p :: ps => (c :: p) :: ps

/-- Python `s.split(sep)` for a non-empty separator. -/
def py_split (sep s : Str) : List Str :=
  match sep with
  | [] => [s]
  | c :: cs => splitGo c cs 0 s

/-- Python `sep.join(parts)`. -/
def py_join (sep : Str) : List Str → Str
  | [] => []
  | [p] => p
  | p :: ps => p ++ sep ++ py_join sep ps

def or_string : Str := strToL " ou "
def and_string : Str := strToL "+"

/-- Sequence a list of optional results: `none` iff any element is `none`
(models the `if None in group_reqs: return None` check). -/
def seqOpt {α : Type} : List (Option α) → Option (List α)
  | [] => some []
  | none :: _ => none
  | some a :: rest => (seqOpt rest).map (a :: ·)

/-- One group of `parse_requirements`: split on `+`, classify each token,
fail if any classification fails. -/
def parse_group (g : Str) : Option (List Requirement) :=
  seqOpt ((py_split and_string g).map create_requirement)

/-- The group loop of `parse_requirements`: the whole result is `None` as
soon as any group contains an invalid token. -/
def parse_groups : List Str → Option (List (List Requirement))
  | [] => some []
  | g :: gs =>
    match parse_group g with
    | none => none
    | some rs => (parse_groups gs).map (rs :: ·)

/-- `parse_requirements`: split the raw text on `' ou '`, then each group
on `'+'`; `None` if any token fails classification. -/
def parse_requirements (raw : Str) : Option (List (List Requirement)) :=
  parse_groups (py_split or_string raw)

/-- Token loop with Python evaluation order: the list comprehension
`[create_requirement(raw) for raw in group.split(and_string)]` evaluates the
classifier on every token (possible exceptions included) before the
`None in` membership test. -/
def parse_tokens_checked : List Str → Except String (Option (List Requirement))
  | [] => Except.ok (some [])
  | t :: ts =>
    match create_requirement_checked t with
    | Except.error e => Except.error e
    | Except.ok r =>
      match parse_tokens_checked ts with
      | Except.error e => Except.error e
      | Except.ok rs =>
        Except.ok (match r, rs with
          | some a, some l => some (a :: l)
          | _, _ => none)

/-- Group loop with Python evaluation order: `return None` exits the loop at
the first bad group, so later groups are not classified at all. -/
def parse_groups_checked : List Str → Except String (Option (List (List Requirement)))
  | [] => Except.ok (some [])
  | g :: gs =>
    match parse_tokens_checked (py_split and_string g) with
    | Except.error e => Except.error e
    | Except.ok none => Except.ok none
    | Except.ok (some rs) =>
      match parse_groups_checked gs with
      | Except.error e => Except.error e
      | Except.ok none => Except.ok none
      | Except.ok (some rest) => Except.ok (some (rs :: rest))

/-- `parse_requirements` with Python evaluation order and explicit
`IndexError` propagation. -/
def parse_requirements_checked (raw : Str) :
    Except String (Option (List (List Requirement))) :=
  parse_groups_checked (py_split or_string raw)

/-! ### Serialization back to the textual grammar (for round-trip claims) -/

/-- Render one atom back to its token: `*` prefix for partial atoms. -/
def serializeAtom (a : Requirement) : Str :=
  if a.isPartial = some true then '*' :: a.code else a.code

def serializeGroup (g : List Requirement) : Str :=
  py_join and_string (g.map serializeAtom)

def serializeExpr (e : List (List Requirement)) : Str :=
  py_join or_string (e.map serializeGroup)

def isUpper (c : Char) : Bool := 'A' ≤ c && c ≤ 'Z'
def isLower (c : Char) : Bool := 'a' ≤ c && c ≤ 'z'
def isLetterCh (c : Char) : Bool := isUpper c || isLower c
def isDigitCh (c : Char) : Bool := '0' ≤ c && c ≤ '9'

/-- Canonical discipline-code form from the spec: 2 letters then 3 digits. -/
def canonicalCode (s : Str) : Prop :=
  s.length = 5 ∧ (∀ c ∈ s.take 2, isLetterCh c = true) ∧
    (∀ c ∈ s.drop 2, isDigitCh c = true)

instance (s : Str) : Decidable (canonicalCode s) := by
  unfold canonicalCode; infer_instance

/-- An atom as the parser itself produces for canonical grammar input. -/
def canonicalAtom (a : Requirement) : Prop :=
  canonicalCode a.code ∧ (a.isPartial = none ∨ a.isPartial = some true) ∧
    a.special = none

instance (a : Requirement) : Decidable (canonicalAtom a) := by
  unfold canonicalAtom; infer_instance

/-- An expression generated by the grammar: nonempty groups of canonical
atoms. -/
def canonicalExpr (e : List (List Requirement)) : Prop :=
  e ≠ [] ∧ ∀ g ∈ e, g ≠ [] ∧ ∀ a ∈ g, canonicalAtom a

instance (e : List (List Requirement)) : Decidable (canonicalExpr e) := by
  unfold canonicalExpr; infer_instance

/-! ### Catalog state and the cross-reference resolution pass -/

abbrev Shard := List (Str × Discipline)
abbrev AllData := List (Str × Shard)

/-- `get_discipline`: two-level lookup `data[code[0:2]][code]`, `None` when
either key is missing. -/
def get_discipline (code : Str) (data : AllData) : Option Discipline :=
  match alookup (code.take 2) data with
  | none => none
  | some initials_data => alookup code initials_data

/-- `add_required_by`: Python `if requirement.get('reqBy'):` is a truthiness
test (absent key and empty list both fall to the else branch); the then
branch appends in place. -/
def add_required_by (requirement : Discipline) (discipline_code : Str) : Discipline :=
  match requirement.reqBy with
  | some l =>
    if l = [] then { requirement with reqBy := some [discipline_code] }
    else { requirement with reqBy := some (l ++ [discipline_code]) }
  | none => { requirement with reqBy := some [discipline_code] }

/-- Apply `f` to every entry of a shard whose key is `c`. -/
def updShard (c : Str) (f : Discipline → Discipline) (sh : Shard) : Shard :=
  sh.map (fun q => if q.1 = c then (q.1, f q.2) else q)

/-- Apply `f` to the discipline stored at outer key `i`, inner key `c`
(models in-place mutation of that record). -/
def update_at (i c : Str) (f : Discipline → Discipline) (s : AllData) : AllData :=
  s.map (fun p => if p.1 = i then (p.1, updShard c f p.2) else p)

/-- One iteration of the innermost loop of `update_initials_requirements`:
resolve the atom; on success mutate the target's `reqBy`, on failure mark
the atom `special`.  Returns the new state and the (possibly annotated)
atom. -/
def processAtom (dcode : Str) (s : AllData) (a : Requirement) : AllData × Requirement :=
  match get_discipline a.code s with
  | some _ => (update_at (a.code.take 2) a.code (fun d => add_required_by d dcode) s, a)
  | none => (s, { a with special := some true })

def processBlock (dcode : Str) (s : AllData) : List Requirement → AllData × List Requirement
  | [] => (s, [])
  | a :: rest =>
    let p := processAtom dcode s a
    let pr := processBlock dcode p.1 rest
    (pr.1, p.2 :: pr.2)

def processBlocks (dcode : Str) (s : AllData) :
    List (List Requirement) → AllData × List (List Requirement)
  | [] => (s, [])
  | blk :: rest =>
    let p := processBlock dcode s blk
    let pr := processBlocks dcode p.1 rest
    (pr.1, p.2 :: pr.2)

/-- Body of `update_initials_requirements` for one discipline `dcode` of the
shard at key `i`: read the live record, walk its requirement blocks
(mutating targets' `reqBy` and atoms' `special` flags), and store the
annotated blocks back. -/
def processDiscipline (i : Str) (s : AllData) (dcode : Str) : AllData :=
  match alookup i s with
  | none => s
  | some sh =>
    match alookup dcode sh with
    | none => s
    | some d =>
      match d.reqs with
      | none => s
      | some blocks =>
        let p := processBlocks dcode s blocks
        update_at i dcode (fun d' => { d' with reqs := some p.2 }) p.1

/-- `update_initials_requirements(data, all_data)` where `data` is the shard
stored at key `i` of `all_data`: iterate over that shard's discipline
codes. -/
def update_initials_requirements (i : Str) (s : AllData) : AllData :=
  match alookup i s with
  | none => s
  | some sh => (sh.map Prod.fst).foldl (processDiscipline i) s

/-- The resolution loop of `get_all_disciplines_data`:
`for initials in data: update_initials_requirements(data[initials], data)`. -/
def resolveAll (s : AllData) : AllData :=
  (s.map Prod.fst).foldl (fun s' i => update_initials_requirements i s') s

/-- Python `dict(zip(keys, values))` insertion semantics: a repeated key
keeps its first position but takes the later value. -/
def py_dict {α : Type} (l : List (Str × α)) : List (Str × α) :=
  l.foldl
    (fun acc kv =>
      if (alookup kv.1 acc).isSome then
        acc.map (fun q => if q.1 = kv.1 then (q.1, kv.2) else q)
      else acc ++ [kv])
    []

/-- `get_all_disciplines_data`, with the fetched-and-parsed per-initials
shards supplied as input (fetching is external): zip into a dict, run the
resolution pass over every shard, and list out the discipline records. -/
def get_all_disciplines_data (shards : List (Str × Shard)) : List (Str × List Discipline) :=
  let data := py_dict shards
  let resolved := resolveAll data
  resolved.map (fun p => (p.1, p.2.map Prod.snd))

/-! ### Well-formedness, marking and invariant vocabulary -/

/-- Well-formed catalog state: distinct initials keys, and distinct
discipline codes within each shard (true of every Python `dict`). -/
def WF (s : AllData) : Prop :=
  (s.map Prod.fst).Nodup ∧ ∀ p ∈ s, (p.2.map Prod.fst).Nodup

instance (s : AllData) : Decidable (WF s) := by
  unfold WF; infer_instance

/-- No atom anywhere in the catalog carries a `special` flag yet (true of
every catalog freshly produced by the parser, which never sets it). -/
def NoSpecial (s : AllData) : Prop :=
  ∀ p ∈ s, ∀ q ∈ p.2, ∀ blk ∈ q.2.reqs.getD [], ∀ a ∈ blk, a.special = none

instance (s : AllData) : Decidable (NoSpecial s) := by
  unfold NoSpecial; infer_instance

/-- What the resolution pass does to a single atom, as a function of the
initial catalog: unresolvable codes get `special := true`. -/
def markAtom (s0 : AllData) (a : Requirement) : Requirement :=
  if (get_discipline a.code s0).isSome then a else { a with special := some true }

def markBlocks (s0 : AllData) (bs : List (List Requirement)) : List (List Requirement) :=
  bs.map (fun blk => blk.map (markAtom s0))

def markD (s0 : AllData) (d : Discipline) : Discipline :=
  { d with reqs := d.reqs.map (markBlocks s0) }

/-- Erase the `reqBy` field (the only discipline-level field the resolution
pass mutates). -/
def stripD (d : Discipline) : Discipline := { d with reqBy := none }

def stripShard (sh : Shard) : Shard := sh.map (fun q => (q.1, stripD q.2))

def strip (s : AllData) : AllData := s.map (fun p => (p.1, stripShard p.2))

/-- Mark the requirement expressions of the disciplines at the positions
listed in `P`. -/
def markShard (s0 : AllData) (i : Str) (P : List (Str × Str)) (sh : Shard) : Shard :=
  sh.map (fun q => if (i, q.1) ∈ P then (q.1, markD s0 q.2) else q)

def markP (s0 : AllData) (P : List (Str × Str)) (s : AllData) : AllData :=
  s.map (fun p => (p.1, markShard s0 p.1 P p.2))

/-- Erase both mutation targets of the pass: atoms' `special` flags and
disciplines' `reqBy` fields.  Everything the pass must leave alone
(codes, names, credits, syllabi, the group/atom structure and the
`partial` flags) survives this erasure. -/
def eraseAtom (a : Requirement) : Requirement := { a with special := none }

def eraseD (d : Discipline) : Discipline :=
  { d with reqBy := none,
           reqs := d.reqs.map (fun bs => bs.map (fun blk => blk.map eraseAtom)) }

def eraseMut (s : AllData) : AllData :=
  s.map (fun p => (p.1, p.2.map (fun q => (q.1, eraseD q.2))))

/-- `c` is recorded in the `reqBy` list of the discipline that the code `t`
resolves to in state `s`. -/
def memAt (t c : Str) (s : AllData) : Prop :=
  ∃ d l, get_discipline t s = some d ∧ d.reqBy = some l ∧ c ∈ l

/-- The (initials, code) positions of the shard stored at key `i`. -/
def posOf (i : Str) (s : AllData) : List (Str × Str) :=
  match alookup i s with
  | none => []
  | some sh => sh.map (fun q => (i, q.1))

def posList (s0 : AllData) : List Str → List (Str × Str)
  | [] => []
  | i :: ks => posOf i s0 ++ posList s0 ks

/-- Invariant A: relative to the initial catalog `s0`, the current state
differs from `s0` only by `reqBy` contents and by `special`-marking of the
requirement expressions at the already-processed positions `P`. -/
def InvA (s0 : AllData) (P : List (Str × Str)) (s : AllData) : Prop :=
  strip s = markP s0 P (strip s0)

/-- Invariant B: every resolvable atom of every already-processed
discipline has deposited its back-reference. -/
def InvB (s0 : AllData) (P : List (Str × Str)) (s : AllData) : Prop :=
  ∀ i c, (i, c) ∈ P → ∀ sh0 d0, alookup i s0 = some sh0 → alookup c sh0 = some d0 →
    ∀ blk ∈ d0.reqs.getD [], ∀ a ∈ blk,
      (get_discipline a.code s0).isSome = true → memAt a.code c s

/-! ### Concrete example catalogs used by witnesses and counterexamples -/

def mkAtom (c : String) : Requirement :=
  { code := strToL c, isPartial := none, special := none }

def mkDisc (c : String) (rq : Option (List (List Requirement))) : Discipline :=
  { code := strToL c, name := strToL c, credits := 2, reqs := rq,
    reqBy := none, syllabus := [] }

/-- One shard: `MC102` with no requirements, `MC202` requiring `MC102` and
the foreign code `XX999`. -/
def exC1 : AllData :=
  [(strToL "MC",
    [(strToL "MC102", mkDisc "MC102" none),
     (strToL "MC202", mkDisc "MC202" (some [[mkAtom "MC102", mkAtom "XX999"]]))])]

/-- `MC202` references `MC102` from two different OR-groups. -/
def exC2 : AllData :=
  [(strToL "MC",
    [(strToL "MC102", mkDisc "MC102" none),
     (strToL "MC202", mkDisc "MC202" (some [[mkAtom "MC102"], [mkAtom "MC102"]]))])]

def exC6d1 : Discipline :=
  { code := strToL "MC102", name := strToL "Calculus", credits := 4,
    reqs := none, reqBy := none, syllabus := [] }

def exC6d2 : Discipline :=
  { code := strToL "MC102", name := strToL "Algebra", credits := 4,
    reqs := none, reqBy := none, syllabus := [] }

/-- Two shards declaring the same discipline code with differing names. -/
def exC6 : List (Str × Shard) :=
  [(strToL "MC", [(strToL "MC102", exC6d1)]),
   (strToL "XX", [(strToL "MC102", exC6d2)])]

/-- `MC102` exists in the catalog but is stored under the shard key `XY`,
not under its own first two characters `MC`. -/
def exC10 : AllData :=
  [(strToL "XY", [(strToL "MC102", mkDisc "MC102" none)]),
   (strToL "AA", [(strToL "AA100", mkDisc "AA100" (some [[mkAtom "MC102"]]))])]

/-- A canonical two-group expression for the round-trip witness. -/
def exC8 : List (List Requirement) :=
  [[mkAtom "MC102", mkAtom "EE400"],
   [{ code := strToL "FX001", isPartial := some true, special := none }]]

/-! ## Helper lemmas: parser -/

theorem seqOpt_eq_none {α : Type} (l : List (Option α)) (h : none ∈ l) :
    seqOpt l = none := by
  induction l with
  | nil => cases h
  | cons x xs ih =>
    cases x with
    | none => rfl
    | some a =>
      rcases List.mem_cons.mp h with h' | h'
      · exact absurd h'.symm (by simp)
      · simp [seqOpt, ih h']

theorem parse_group_eq_none (g t : Str) (ht : t ∈ py_split and_string g)
    (h : create_requirement t = none) : parse_group g = none := by
  apply seqOpt_eq_none
  exact List.mem_map.mpr ⟨t, ht, h⟩

theorem parse_groups_eq_none (gs : List Str) (g : Str) (hg : g ∈ gs)
    (h : parse_group g = none) : parse_groups gs = none := by
  induction gs with
  | nil => cases hg
  | cons g' gs' ih =>
    rcases List.mem_cons.mp hg with h' | h'
    · subst h'; simp [parse_groups, h]
    · cases hpg : parse_group g' with
      | none => simp [parse_groups, hpg]
      | some rs => simp [parse_groups, hpg, ih h']

/-! ## C3: one bad token anywhere nullifies the whole expression -/

/-- C3: if any token of any group fails classification, `parse_requirements`
returns `None` for the whole expression — no partial list of groups — and in
particular `"AB12+XY999"` yields `None`, not a one-atom group. -/
theorem c3_parse_fail_fast :
    (∀ raw g t, g ∈ py_split or_string raw → t ∈ py_split and_string g →
      create_requirement t = none → parse_requirements raw = none) ∧
    parse_requirements (strToL "AB12+XY999") = none := by
  constructor
  · intro raw g t hg ht h
    exact parse_groups_eq_none _ g hg (parse_group_eq_none g t ht h)
  · decide

theorem c3_parse_fail_fast_witness :
    parse_requirements (strToL "MC102 ou AB12") = none := by
  exact c3_parse_fail_fast.1 (strToL "MC102 ou AB12") (strToL "AB12") (strToL "AB12")
    (by decide) (by decide) (by decide)

/-! ## C4: the classifier checks only length, not letters-then-digits -/

/-- C4 counterexample: the claim says a 5-character token that is not
letters-then-digits must fail classification; but `"12345"` is not of the
canonical 2-letters-3-digits form and is still classified as a non-partial
atom, because `is_discipline_code` checks only `len(code) == 5`. -/
theorem c4_counterexample :
    ¬ canonicalCode (strToL "12345") ∧
    create_requirement (strToL "12345") =
      some { code := strToL "12345", isPartial := none, special := none } := by
  constructor
  · decide
  · decide

/-- C4 amended: the classifier accepts exactly by length: any 5-character
token (canonical codes and `"F 000"` included, but also any other
5-character string) becomes a non-partial atom; any 6-character token
starting with `*` becomes a partial atom whose code is the tail; everything
else fails. -/
theorem c4_amended_length_classifier (raw : Str) :
    ((∃ r, create_requirement raw = some r ∧ r.isPartial = none) ↔ raw.length = 5) ∧
    ((∃ r, create_requirement raw = some r ∧ r.isPartial = some true) ↔
      (raw.length = 6 ∧ raw.head? = some '*')) ∧
    (create_requirement raw = none ↔
      (raw.length ≠ 5 ∧ ¬(raw.length = 6 ∧ raw.head? = some '*'))) := by
  have hdrop : (raw.drop 1).length = raw.length - 1 := by simp
  unfold create_requirement is_discipline_code headIsStar
  by_cases h5 : raw.length = 5
  · simp [h5]
  · have h5' : (raw.length == 5) = false := by simpa using h5
    by_cases h6 : raw.length = 6
    · have : ((raw.drop 1).length == 5) = true := by simp [hdrop, h6]
      by_cases hstar : raw.head? = some '*'
      · simp [h5', this, hstar, h5, h6]
      · have : (raw.head? == some '*') = false := by simpa using hstar
        simp_all
    · have : ((raw.drop 1).length == 5) = false := by
        simp only [hdrop]; simpa using by omega
      simp_all

/-! ## C5: the `ou` separator is case-sensitive, not case-insensitive -/

/-- C5 counterexample: the claim says `ou` is matched case-insensitively, so
`"MC102 OU *MC202"` and `"MC102 Ou *MC202"` should parse to the same two
groups as `"MC102 ou *MC202"`; in fact only the lowercase form splits, and
the uppercase variants fail to parse at all. -/
theorem c5_counterexample :
    parse_requirements (strToL "MC102 ou *MC202") =
      some [[{ code := strToL "MC102", isPartial := none, special := none }],
            [{ code := strToL "MC202", isPartial := some true, special := none }]] ∧
    parse_requirements (strToL "MC102 OU *MC202") = none ∧
    parse_requirements (strToL "MC102 Ou *MC202") = none := by
  refine ⟨by decide, by decide, by decide⟩

/-- C5 amended: the separator `" ou "` is matched case-sensitively
(lowercase only, surrounding spaces included) and `+` splits a group into
atoms: `"MC102 ou *MC202"` parses to exactly the two stated groups, a `+`
group collects its atoms in order, and the `OU`/`Ou` spellings do not act
as separators (the parse fails instead). -/
theorem c5_amended_case_sensitive :
    parse_requirements (strToL "MC102 ou *MC202") =
      some [[{ code := strToL "MC102", isPartial := none, special := none }],
            [{ code := strToL "MC202", isPartial := some true, special := none }]] ∧
    parse_requirements (strToL "MC102+MC103 ou *MC202") =
      some [[{ code := strToL "MC102", isPartial := none, special := none },
             { code := strToL "MC103", isPartial := none, special := none }],
            [{ code := strToL "MC202", isPartial := some true, special := none }]] ∧
    parse_requirements (strToL "MC102 OU *MC202") = none ∧
    parse_requirements (strToL "MC102 Ou *MC202") = none := by
  refine ⟨by decide, by decide, by decide, by decide⟩

/-! ## C9: totality of classification and parsing -/

theorem create_requirement_checked_total (raw : Str) :
    create_requirement_checked raw = Except.ok (create_requirement raw) := by
  unfold create_requirement_checked create_requirement
  by_cases h : is_discipline_code raw
  · simp [h]
  · by_cases h1 : is_discipline_code (raw.drop 1)
    · cases raw with
      | nil => simp [is_discipline_code] at h1
      | cons c rest =>
        have hca : char_at (c :: rest) 0 = Except.ok c := rfl
        by_cases hc : c = '*'
        · subst hc
          simp only [h, h1, hca, if_false, if_true, Bool.false_eq_true, ite_false,
            ite_true, headIsStar, List.head?]
          by_cases hr : is_discipline_code rest
          · simp_all
          · simp_all
        · have hc' : (c == '*') = false := by simpa using hc
          simp [h, h1, hca, headIsStar, hc', hc]
    · have h1' : ¬ is_discipline_code (List.tail raw) = true := by
        simpa [List.drop_one] using h1
      simp [h, h1, h1']

theorem parse_tokens_checked_total (ts : List Str) :
    parse_tokens_checked ts = Except.ok (seqOpt (ts.map create_requirement)) := by
  induction ts with
  | nil => rfl
  | cons t ts ih =>
    unfold parse_tokens_checked
    rw [create_requirement_checked_total, ih]
    cases h : create_requirement t with
    | none => simp [seqOpt, h]
    | some a =>
      cases hs : seqOpt (ts.map create_requirement) with
      | none => simp [seqOpt, h, hs]
      | some l => simp [seqOpt, h, hs]

theorem parse_groups_checked_total (gs : List Str) :
    parse_groups_checked gs = Except.ok (parse_groups gs) := by
  induction gs with
  | nil => rfl
  | cons g gs ih =>
    unfold parse_groups_checked parse_groups
    rw [parse_tokens_checked_total]
    cases h : parse_group g with
    | none =>
      unfold parse_group at h
      simp [h]
    | some rs =>
      unfold parse_group at h
      rw [h, ih]
      cases hs : parse_groups gs with
      | none => simp
      | some rest => simp

/-- C9: atom classification and expression parsing are total: modelling
Python's evaluation order (including the `raw[0]` indexing, which raises
`IndexError` on an empty token) shows no input — the empty string and
`"*"` included — ever raises: the length check on `raw[1:]` short-circuits
the `and` before the indexing, so both functions always return a value. -/
theorem c9_parser_total (raw : Str) :
    create_requirement_checked raw = Except.ok (create_requirement raw) ∧
    parse_requirements_checked raw = Except.ok (parse_requirements raw) := by
  exact ⟨create_requirement_checked_total raw,
    parse_groups_checked_total (py_split or_string raw)⟩

/-! ## C10: two-level lookup keyed by the first two characters -/

/-- C10: `get_discipline` resolves `code` through `data[code[0:2]][code]` —
it returns a discipline exactly when the outer key equals the first two
characters of the code and that shard holds the code; a missing outer key
alone forces `None`.  Consequently in `exC10`, where `MC102` is stored only
under the shard key `XY`, the referencing atom is marked
`special = true` by the resolution pass even though `MC102` exists in the
catalog under `XY`. -/
theorem c10_two_level_lookup :
    (∀ (code : Str) (data : AllData) (d : Discipline),
      get_discipline code data = some d ↔
        ∃ sh, alookup (code.take 2) data = some sh ∧ alookup code sh = some d) ∧
    (∀ (code : Str) (data : AllData),
      alookup (code.take 2) data = none → get_discipline code data = none) ∧
    alookup (strToL "XY") exC10 = some [(strToL "MC102", mkDisc "MC102" none)] ∧
    resolveAll exC10 =
      [(strToL "XY", [(strToL "MC102", mkDisc "MC102" none)]),
       (strToL "AA",
        [(strToL "AA100",
          mkDisc "AA100" (some [[{ code := strToL "MC102", isPartial := none,
                                   special := some true }]]))])] := by
  refine ⟨?_, ?_, by decide, by decide⟩
  · intro code data d
    unfold get_discipline
    cases h : alookup (code.take 2) data with
    | none =>
      constructor
      · intro h'; cases h'
      · rintro ⟨sh, hsh, _⟩; cases hsh
    | some sh =>
      constructor
      · intro h'; exact ⟨sh, rfl, h'⟩
      · rintro ⟨sh', hsh, hd⟩; cases hsh; exact hd
  · intro code data h
    unfold get_discipline
    simp [h]

/-! ## C2 counterexample: `reqBy` accumulates duplicates -/

/-- C2 counterexample: in `exC2` the discipline `MC202` references `MC102`
from two OR-groups; after one resolution pass `MC102.reqBy` holds
`["MC202", "MC202"]` (twice, not exactly once), and a second pass over the
same catalog appends the same references again, producing four copies —
the pass is not idempotent. -/
theorem c2_counterexample :
    resolveAll exC2 =
      [(strToL "MC",
        [(strToL "MC102",
          { mkDisc "MC102" none with reqBy := some [strToL "MC202", strToL "MC202"] }),
         (strToL "MC202", mkDisc "MC202" (some [[mkAtom "MC102"], [mkAtom "MC102"]]))])] ∧
    resolveAll (resolveAll exC2) =
      [(strToL "MC",
        [(strToL "MC102",
          { mkDisc "MC102" none with
              reqBy := some [strToL "MC202", strToL "MC202", strToL "MC202",
                             strToL "MC202"] }),
         (strToL "MC202", mkDisc "MC202" (some [[mkAtom "MC102"], [mkAtom "MC102"]]))])] := by
  refine ⟨by decide, by decide⟩

/-! ## C6: the shard merge has no duplicate-code detection -/

/-- C6 counterexample: two shards both declare `MC102` with differing
names; the claim says merging must fail with a catalog-integrity error and
produce zero output records.  Instead `get_all_disciplines_data` succeeds
and outputs both records (the shards are keyed by initials, so the
duplicate code is never even compared). -/
theorem c6_counterexample :
    exC6d1.code = exC6d2.code ∧ exC6d1.name ≠ exC6d2.name ∧
    get_all_disciplines_data exC6 =
      [(strToL "MC", [exC6d1]), (strToL "XX", [exC6d2])] := by
  refine ⟨by decide, by decide, by decide⟩

/-- C6 amended: the merge step performs no duplicate-code detection and
cannot fail: two shards declaring the same discipline code — with any
(arbitrarily differing) record contents — are both kept in the output under
their respective initials keys, and a full set of output records is
produced.  (There is no overwrite across shards either; only the merge of
the per-shard maps by initials happens.) -/
theorem c6_amended_no_integrity_check (d1 d2 : Discipline)
    (h1 : d1.reqs = none) (h2 : d2.reqs = none) :
    get_all_disciplines_data
      [(strToL "MC", [(strToL "MC102", d1)]), (strToL "XX", [(strToL "MC102", d2)])] =
      [(strToL "MC", [d1]), (strToL "XX", [d2])] := by
  have hne : strToL "XX" ≠ strToL "MC" := by decide
  have hne2 : strToL "MC" ≠ strToL "XX" := by decide
  simp [get_all_disciplines_data, py_dict, resolveAll, update_initials_requirements,
        processDiscipline, alookup, List.foldl, hne, hne2, h1, h2]

theorem c6_amended_no_integrity_check_witness :
    get_all_disciplines_data
      [(strToL "MC", [(strToL "MC102", exC6d1)]),
       (strToL "XX", [(strToL "MC102", exC6d2)])] =
      [(strToL "MC", [exC6d1]), (strToL "XX", [exC6d2])] :=
  c6_amended_no_integrity_check exC6d1 exC6d2 rfl rfl

/-! ## Helper lemmas: association-list lookups through the state maps -/

theorem alookup_strip (k : Str) (s : AllData) :
    alookup k (strip s) = (alookup k s).map stripShard := by
  induction s with
  | nil => rfl
  | cons p rest ih =>
    by_cases h : p.1 = k
    · simp [strip, alookup, h]
    · simpa [strip, alookup, h] using ih

theorem alookup_markP (k : Str) (s0 : AllData) (P : List (Str × Str)) (s : AllData) :
    alookup k (markP s0 P s) = (alookup k s).map (markShard s0 k P) := by
  induction s with
  | nil => rfl
  | cons p rest ih =>
    by_cases h : p.1 = k
    · simp [markP, alookup, h]
    · simpa [markP, alookup, h] using ih

theorem alookup_stripShard (k : Str) (sh : Shard) :
    alookup k (stripShard sh) = (alookup k sh).map stripD := by
  induction sh with
  | nil => rfl
  | cons q rest ih =>
    by_cases h : q.1 = k
    · simp [stripShard, alookup, h]
    · simpa [stripShard, alookup, h] using ih

theorem alookup_cons {α : Type} (k k' : Str) (v : α) (rest : List (Str × α)) :
    alookup k ((k', v) :: rest) = if k' = k then some v else alookup k rest := rfl

theorem alookup_markShard (k : Str) (s0 : AllData) (i : Str) (P : List (Str × Str))
    (sh : Shard) :
    alookup k (markShard s0 i P sh) =
      (alookup k sh).map (fun d => if (i, k) ∈ P then markD s0 d else d) := by
  induction sh with
  | nil => rfl
  | cons q rest ih =>
    rcases q with ⟨qk, qd⟩
    show alookup k
      ((if (i, qk) ∈ P then (qk, markD s0 qd) else (qk, qd)) :: markShard s0 i P rest) = _
    by_cases h : (i, qk) ∈ P
    · rw [if_pos h, alookup_cons, alookup_cons]
      by_cases hk : qk = k
      · subst hk; simp [h]
      · simp [hk, ih]
    · rw [if_neg h, alookup_cons, alookup_cons]
      by_cases hk : qk = k
      · subst hk; simp [h]
      · simp [hk, ih]

theorem alookup_updShard (k c : Str) (f : Discipline → Discipline) (sh : Shard) :
    alookup k (updShard c f sh) =
      if k = c then (alookup k sh).map f else alookup k sh := by
  induction sh with
  | nil => by_cases hk : k = c <;> simp [updShard, alookup, hk]
  | cons q rest ih =>
    rcases q with ⟨qk, qd⟩
    show alookup k ((if qk = c then (qk, f qd) else (qk, qd)) :: updShard c f rest) = _
    by_cases h : qk = c
    · rw [if_pos h, alookup_cons]
      by_cases hk : qk = k
      · subst hk; rw [if_pos rfl, if_pos h, alookup_cons, if_pos rfl]; rfl
      · rw [if_neg hk, ih, alookup_cons, if_neg hk]
    · rw [if_neg h, alookup_cons]
      by_cases hk : qk = k
      · subst hk
        rw [if_pos rfl, if_neg h, alookup_cons, if_pos rfl]
      · rw [if_neg hk, ih, alookup_cons, if_neg hk]

theorem alookup_update_at (k i c : Str) (f : Discipline → Discipline) (s : AllData) :
    alookup k (update_at i c f s) =
      if k = i then (alookup k s).map (updShard c f) else alookup k s := by
  induction s with
  | nil => by_cases hk : k = i <;> simp [update_at, alookup, hk]
  | cons p rest ih =>
    rcases p with ⟨pk, pv⟩
    show alookup k ((if pk = i then (pk, updShard c f pv) else (pk, pv)) :: update_at i c f rest) = _
    by_cases h : pk = i
    · rw [if_pos h, alookup_cons]
      by_cases hk : pk = k
      · subst hk; rw [if_pos rfl, if_pos h, alookup_cons, if_pos rfl]; rfl
      · rw [if_neg hk, ih, alookup_cons, if_neg hk]
    · rw [if_neg h, alookup_cons]
      by_cases hk : pk = k
      · subst hk
        rw [if_pos rfl, if_neg h, alookup_cons, if_pos rfl]
      · rw [if_neg hk, ih, alookup_cons, if_neg hk]

theorem alookup_eq_none_iff {α : Type} (k : Str) (l : List (Str × α)) :
    alookup k l = none ↔ ∀ p ∈ l, p.1 ≠ k := by
  induction l with
  | nil =>
    constructor
    · intro _ p hp; cases hp
    · intro _; rfl
  | cons p rest ih =>
    cases p with
    | mk pk pv =>
      by_cases h : pk = k
      · subst h
        rw [alookup, if_pos rfl]
        constructor
        · intro h'; cases h'
        · intro hall
          exact absurd rfl (hall (pk, pv) (List.mem_cons_self _ _))
      · rw [alookup, if_neg h, ih]
        constructor
        · intro hall p hp
          rcases List.mem_cons.mp hp with h' | h'
          · subst h'; exact h
          · exact hall p h'
        · intro hall p hp
          exact hall p (List.mem_cons_of_mem _ hp)

theorem alookup_mem {α : Type} (k : Str) (l : List (Str × α)) (v : α)
    (h : alookup k l = some v) : (k, v) ∈ l := by
  induction l with
  | nil => cases h
  | cons p rest ih =>
    cases p with
    | mk pk pv =>
      by_cases hk : pk = k
      · rw [alookup, if_pos hk] at h
        cases h
        subst hk
        exact List.mem_cons_self _ _
      · rw [alookup, if_neg hk] at h
        exact List.mem_cons_of_mem _ (ih h)

theorem alookup_of_nodup_mem {α : Type} (k : Str) (l : List (Str × α)) (v : α)
    (hnd : (l.map Prod.fst).Nodup) (h : (k, v) ∈ l) : alookup k l = some v := by
  induction l with
  | nil => cases h
  | cons p rest ih =>
    cases p with
    | mk pk pv =>
      rw [List.map_cons] at hnd
      have hnd' := List.nodup_cons.mp hnd
      rcases List.mem_cons.mp h with h' | h'
      · cases h'
        simp [alookup]
      · have hk : pk ≠ k := fun he =>
          hnd'.1 (by rw [he]; exact List.mem_map.mpr ⟨(k, v), h', rfl⟩)
        rw [alookup, if_neg hk]
        exact ih hnd'.2 h'

/-! ## Helper lemmas: `get_discipline` through the state maps -/

theorem gd_strip (t : Str) (s : AllData) :
    get_discipline t (strip s) = (get_discipline t s).map stripD := by
  unfold get_discipline
  rw [alookup_strip]
  cases alookup (t.take 2) s with
  | none => rfl
  | some sh => simp [alookup_stripShard]

theorem gd_markP (t : Str) (s0 : AllData) (P : List (Str × Str)) (s : AllData) :
    get_discipline t (markP s0 P s) =
      (get_discipline t s).map (fun d => if (t.take 2, t) ∈ P then markD s0 d else d) := by
  unfold get_discipline
  rw [alookup_markP]
  cases alookup (t.take 2) s with
  | none => rfl
  | some sh => simp [alookup_markShard]

theorem gd_update_at (t i c : Str) (f : Discipline → Discipline) (s : AllData) :
    get_discipline t (update_at i c f s) =
      if t.take 2 = i ∧ t = c then (get_discipline t s).map f
      else get_discipline t s := by
  unfold get_discipline
  rw [alookup_update_at]
  by_cases hi : t.take 2 = i
  · rw [if_pos hi]
    cases h : alookup (t.take 2) s with
    | none =>
      by_cases hc : t = c
      · rw [if_pos ⟨hi, hc⟩]; rfl
      · rw [if_neg (fun hh => hc hh.2)]; rfl
    | some sh =>
      by_cases hc : t = c
      · rw [if_pos ⟨hi, hc⟩]
        show alookup t (updShard c f sh) = (alookup t sh).map f
        rw [alookup_updShard, if_pos hc]
      · rw [if_neg (fun hh => hc hh.2)]
        show alookup t (updShard c f sh) = alookup t sh
        rw [alookup_updShard, if_neg hc]
  · rw [if_neg hi, if_neg (fun hh => hi hh.1)]

/-! ## Helper lemmas: key preservation and no-op updates -/

theorem stripShard_keys (sh : Shard) :
    (stripShard sh).map Prod.fst = sh.map Prod.fst := by
  induction sh with
  | nil => rfl
  | cons q rest ih =>
    show q.1 :: (stripShard rest).map Prod.fst = q.1 :: rest.map Prod.fst
    rw [ih]

theorem strip_keys (s : AllData) : (strip s).map Prod.fst = s.map Prod.fst := by
  induction s with
  | nil => rfl
  | cons p rest ih =>
    show p.1 :: (strip rest).map Prod.fst = p.1 :: rest.map Prod.fst
    rw [ih]

theorem markShard_keys (s0 : AllData) (i : Str) (P : List (Str × Str)) (sh : Shard) :
    (markShard s0 i P sh).map Prod.fst = sh.map Prod.fst := by
  induction sh with
  | nil => rfl
  | cons q rest ih =>
    by_cases h : (i, q.1) ∈ P
    · show ((if (i, q.1) ∈ P then (q.1, markD s0 q.2) else q)).1 ::
        (markShard s0 i P rest).map Prod.fst = q.1 :: rest.map Prod.fst
      rw [if_pos h, ih]
    · show ((if (i, q.1) ∈ P then (q.1, markD s0 q.2) else q)).1 ::
        (markShard s0 i P rest).map Prod.fst = q.1 :: rest.map Prod.fst
      rw [if_neg h, ih]

theorem markP_keys (s0 : AllData) (P : List (Str × Str)) (s : AllData) :
    (markP s0 P s).map Prod.fst = s.map Prod.fst := by
  induction s with
  | nil => rfl
  | cons p rest ih =>
    show p.1 :: (markP s0 P rest).map Prod.fst = p.1 :: rest.map Prod.fst
    rw [ih]

theorem updShard_absent (c : Str) (f : Discipline → Discipline) (sh : Shard)
    (h : ∀ q ∈ sh, q.1 ≠ c) : updShard c f sh = sh := by
  induction sh with
  | nil => rfl
  | cons q rest ih =>
    show (if q.1 = c then (q.1, f q.2) else q) :: updShard c f rest = q :: rest
    rw [if_neg (h q (List.mem_cons_self _ _)),
      ih (fun q' hq' => h q' (List.mem_cons_of_mem _ hq'))]

theorem update_at_absent (i c : Str) (f : Discipline → Discipline) (s : AllData)
    (h : ∀ p ∈ s, p.1 ≠ i) : update_at i c f s = s := by
  induction s with
  | nil => rfl
  | cons p rest ih =>
    show (if p.1 = i then (p.1, updShard c f p.2) else p) :: update_at i c f rest = p :: rest
    rw [if_neg (h p (List.mem_cons_self _ _)),
      ih (fun p' hp' => h p' (List.mem_cons_of_mem _ hp'))]

/-! ## Helper lemmas: extending the processed-position set -/

theorem markShard_cons_triv (s0 : AllData) (pk i cd : Str) (P : List (Str × Str))
    (sh : Shard) (h : ∀ q ∈ sh, pk = i → q.1 = cd → markD s0 q.2 = q.2) :
    markShard s0 pk ((i, cd) :: P) sh = markShard s0 pk P sh := by
  induction sh with
  | nil => rfl
  | cons q rest ih =>
    show (if (pk, q.1) ∈ (i, cd) :: P then (q.1, markD s0 q.2) else q) ::
        markShard s0 pk ((i, cd) :: P) rest =
      (if (pk, q.1) ∈ P then (q.1, markD s0 q.2) else q) :: markShard s0 pk P rest
    rw [ih (fun q' hq' => h q' (List.mem_cons_of_mem _ hq'))]
    by_cases he : (pk, q.1) = (i, cd)
    · have hpk : pk = i := congrArg Prod.fst he
      have hq1 : q.1 = cd := congrArg Prod.snd he
      have hm : markD s0 q.2 = q.2 := h q (List.mem_cons_self _ _) hpk hq1
      rw [if_pos (List.mem_cons.mpr (Or.inl he)), hm]
      by_cases hp : (pk, q.1) ∈ P
      · rw [if_pos hp]
      · rw [if_neg hp]
    · by_cases hp : (pk, q.1) ∈ P
      · rw [if_pos (List.mem_cons.mpr (Or.inr hp)), if_pos hp]
      · rw [if_neg (fun hmem => (List.mem_cons.mp hmem).elim he hp), if_neg hp]

theorem markP_cons_triv (s0 : AllData) (i cd : Str) (P : List (Str × Str)) (x : AllData)
    (h : ∀ p ∈ x, ∀ q ∈ p.2, p.1 = i → q.1 = cd → markD s0 q.2 = q.2) :
    markP s0 ((i, cd) :: P) x = markP s0 P x := by
  induction x with
  | nil => rfl
  | cons p rest ih =>
    show (p.1, markShard s0 p.1 ((i, cd) :: P) p.2) :: markP s0 ((i, cd) :: P) rest =
      (p.1, markShard s0 p.1 P p.2) :: markP s0 P rest
    rw [markShard_cons_triv s0 p.1 i cd P p.2 (h p (List.mem_cons_self _ _)),
      ih (fun p' hp' => h p' (List.mem_cons_of_mem _ hp'))]

theorem markShard_congr (s0 : AllData) (pk : Str) (P Q : List (Str × Str)) (sh : Shard)
    (h : ∀ pr : Str × Str, pr ∈ P ↔ pr ∈ Q) :
    markShard s0 pk P sh = markShard s0 pk Q sh := by
  induction sh with
  | nil => rfl
  | cons q rest ih =>
    show (if (pk, q.1) ∈ P then (q.1, markD s0 q.2) else q) :: markShard s0 pk P rest =
      (if (pk, q.1) ∈ Q then (q.1, markD s0 q.2) else q) :: markShard s0 pk Q rest
    rw [ih]
    by_cases hp : (pk, q.1) ∈ P
    · rw [if_pos hp, if_pos ((h _).mp hp)]
    · rw [if_neg hp, if_neg (fun hq => hp ((h _).mpr hq))]

theorem markP_congr (s0 : AllData) (P Q : List (Str × Str)) (x : AllData)
    (h : ∀ pr : Str × Str, pr ∈ P ↔ pr ∈ Q) :
    markP s0 P x = markP s0 Q x := by
  induction x with
  | nil => rfl
  | cons p rest ih =>
    show (p.1, markShard s0 p.1 P p.2) :: markP s0 P rest =
      (p.1, markShard s0 p.1 Q p.2) :: markP s0 Q rest
    rw [markShard_congr s0 p.1 P Q p.2 h, ih]

theorem markShard_nilP (s0 : AllData) (i : Str) (sh : Shard) :
    markShard s0 i [] sh = sh := by
  induction sh with
  | nil => rfl
  | cons q rest ih =>
    show (if (i, q.1) ∈ ([] : List (Str × Str)) then (q.1, markD s0 q.2) else q) ::
      markShard s0 i [] rest = q :: rest
    rw [if_neg (List.not_mem_nil _), ih]

theorem markP_nilP (s0 : AllData) (s : AllData) : markP s0 [] s = s := by
  induction s with
  | nil => rfl
  | cons p rest ih =>
    show (p.1, markShard s0 p.1 [] p.2) :: markP s0 [] rest = p :: rest
    rw [markShard_nilP, ih]

/-! ## Helper lemmas: records, stripping and marking -/

theorem markAtom_code (s0 : AllData) (a : Requirement) :
    (markAtom s0 a).code = a.code := by
  unfold markAtom
  by_cases h : (get_discipline a.code s0).isSome = true
  · rw [if_pos h]
  · rw [if_neg h]

theorem markAtom_idem (s0 : AllData) (a : Requirement) :
    markAtom s0 (markAtom s0 a) = markAtom s0 a := by
  unfold markAtom
  by_cases h : (get_discipline a.code s0).isSome = true
  · rw [if_pos h, if_pos h]
  · rw [if_neg h]
    have : (get_discipline ({ a with special := some true } : Requirement).code s0).isSome
        = (get_discipline a.code s0).isSome := rfl
    rw [this, if_neg h]

theorem stripD_markD (s0 : AllData) (d : Discipline) :
    stripD (markD s0 d) = markD s0 (stripD d) := rfl

theorem stripD_add_required_by (d : Discipline) (cd : Str) :
    stripD (add_required_by d cd) = stripD d := by
  rcases d with ⟨dc, dn, dcr, drq, drb, dsy⟩
  cases drb with
  | none => rfl
  | some l =>
    by_cases hl : l = []
    · subst hl; rfl
    · simp only [add_required_by]
      rw [if_neg hl]
      rfl

theorem stripShard_updShard (c : Str) (f : Discipline → Discipline)
    (hf : ∀ d, stripD (f d) = stripD d) (sh : Shard) :
    stripShard (updShard c f sh) = stripShard sh := by
  induction sh with
  | nil => rfl
  | cons q rest ih =>
    rcases q with ⟨qk, qd⟩
    show stripShard ((if qk = c then (qk, f qd) else (qk, qd)) :: updShard c f rest) = _
    by_cases h : qk = c
    · rw [if_pos h]
      show (qk, stripD (f qd)) :: stripShard (updShard c f rest) =
        (qk, stripD qd) :: stripShard rest
      rw [hf, ih]
    · rw [if_neg h]
      show (qk, stripD qd) :: stripShard (updShard c f rest) =
        (qk, stripD qd) :: stripShard rest
      rw [ih]

theorem strip_update_at (i c : Str) (f : Discipline → Discipline)
    (hf : ∀ d, stripD (f d) = stripD d) (s : AllData) :
    strip (update_at i c f s) = strip s := by
  induction s with
  | nil => rfl
  | cons p rest ih =>
    rcases p with ⟨pk, pv⟩
    show strip ((if pk = i then (pk, updShard c f pv) else (pk, pv)) :: update_at i c f rest) = _
    by_cases h : pk = i
    · rw [if_pos h]
      show (pk, stripShard (updShard c f pv)) :: strip (update_at i c f rest) =
        (pk, stripShard pv) :: strip rest
      rw [stripShard_updShard c f hf, ih]
    · rw [if_neg h]
      show (pk, stripShard pv) :: strip (update_at i c f rest) =
        (pk, stripShard pv) :: strip rest
      rw [ih]

/-! ## Helper lemmas: consequences of invariant A -/

theorem invA_alookup (s0 : AllData) (P : List (Str × Str)) (s : AllData)
    (hA : InvA s0 P s) (i : Str) :
    (alookup i s).map stripShard =
      (alookup i s0).map (fun sh0 => markShard s0 i P (stripShard sh0)) := by
  have h := congrArg (alookup i) hA
  rw [alookup_strip, alookup_markP, alookup_strip] at h
  rw [h, Option.map_map]
  rfl

theorem invA_shard_rel (s0 : AllData) (P : List (Str × Str)) (s : AllData)
    (hA : InvA s0 P s) (i : Str) (sh : Shard) (hsh : alookup i s = some sh) :
    ∃ sh0, alookup i s0 = some sh0 ∧
      stripShard sh = markShard s0 i P (stripShard sh0) := by
  have h := invA_alookup s0 P s hA i
  rw [hsh] at h
  cases h0 : alookup i s0 with
  | none => rw [h0] at h; cases h
  | some sh0 =>
    rw [h0] at h
    exact ⟨sh0, rfl, by injection h⟩

theorem invA_shard_rel_rev (s0 : AllData) (P : List (Str × Str)) (s : AllData)
    (hA : InvA s0 P s) (i : Str) (sh0 : Shard) (hsh0 : alookup i s0 = some sh0) :
    ∃ sh, alookup i s = some sh ∧
      stripShard sh = markShard s0 i P (stripShard sh0) := by
  have h := invA_alookup s0 P s hA i
  rw [hsh0] at h
  cases hs : alookup i s with
  | none => rw [hs] at h; cases h
  | some sh =>
    rw [hs] at h
    exact ⟨sh, rfl, by injection h⟩

theorem shard_rel_alookup (s0 : AllData) (P : List (Str × Str)) (i : Str)
    (sh sh0 : Shard) (hrel : stripShard sh = markShard s0 i P (stripShard sh0))
    (c : Str) :
    (alookup c sh).map stripD =
      (alookup c sh0).map
        (fun d0 => if (i, c) ∈ P then markD s0 (stripD d0) else stripD d0) := by
  have h := congrArg (alookup c) hrel
  rw [alookup_stripShard, alookup_markShard, alookup_stripShard] at h
  rw [h, Option.map_map]
  rfl

theorem shard_rel_disc (s0 : AllData) (P : List (Str × Str)) (i : Str)
    (sh sh0 : Shard) (hrel : stripShard sh = markShard s0 i P (stripShard sh0))
    (c : Str) (d : Discipline) (hd : alookup c sh = some d) :
    ∃ d0, alookup c sh0 = some d0 ∧
      stripD d = if (i, c) ∈ P then markD s0 (stripD d0) else stripD d0 := by
  have h := shard_rel_alookup s0 P i sh sh0 hrel c
  rw [hd] at h
  cases h0 : alookup c sh0 with
  | none => rw [h0] at h; cases h
  | some d0 =>
    rw [h0] at h
    exact ⟨d0, rfl, by injection h⟩

theorem shard_rel_disc_rev (s0 : AllData) (P : List (Str × Str)) (i : Str)
    (sh sh0 : Shard) (hrel : stripShard sh = markShard s0 i P (stripShard sh0))
    (c : Str) (d0 : Discipline) (hd0 : alookup c sh0 = some d0) :
    ∃ d, alookup c sh = some d ∧
      stripD d = if (i, c) ∈ P then markD s0 (stripD d0) else stripD d0 := by
  have h := shard_rel_alookup s0 P i sh sh0 hrel c
  rw [hd0] at h
  cases hs : alookup c sh with
  | none => rw [hs] at h; cases h
  | some d =>
    rw [hs] at h
    exact ⟨d, rfl, by injection h⟩

theorem invA_gd_isSome (s0 : AllData) (P : List (Str × Str)) (s : AllData)
    (hA : InvA s0 P s) (t : Str) :
    (get_discipline t s).isSome = (get_discipline t s0).isSome := by
  have h1 : get_discipline t (strip s) = get_discipline t (markP s0 P (strip s0)) := by
    rw [hA]
  rw [gd_strip, gd_markP, gd_strip] at h1
  cases h : get_discipline t s with
  | none =>
    cases h0 : get_discipline t s0 with
    | none => rfl
    | some d0 => rw [h, h0] at h1; cases h1
  | some d =>
    cases h0 : get_discipline t s0 with
    | none => rw [h, h0] at h1; cases h1
    | some d0 => rfl

/-! ## Helper lemmas: `reqBy` membership monotonicity and establishment -/

theorem add_required_by_mono (cd : Str) (d : Discipline) (l : List Str)
    (hl : d.reqBy = some l) :
    ∃ l', (add_required_by d cd).reqBy = some l' ∧ ∀ y ∈ l, y ∈ l' := by
  rcases d with ⟨dc, dn, dcr, drq, drb, dsy⟩
  cases drb with
  | none => cases hl
  | some l0 =>
    have he : l0 = l := by injection hl
    subst he
    by_cases hl0 : l0 = []
    · subst hl0
      exact ⟨[cd], rfl, fun y hy => absurd hy (List.not_mem_nil y)⟩
    · simp only [add_required_by]
      rw [if_neg hl0]
      exact ⟨l0 ++ [cd], rfl, fun y hy => List.mem_append_left _ hy⟩

theorem add_required_by_self (d : Discipline) (cd : Str) :
    ∃ l, (add_required_by d cd).reqBy = some l ∧ cd ∈ l := by
  rcases d with ⟨dc, dn, dcr, drq, drb, dsy⟩
  cases drb with
  | none => exact ⟨[cd], rfl, List.mem_singleton.mpr rfl⟩
  | some l0 =>
    by_cases hl0 : l0 = []
    · subst hl0
      exact ⟨[cd], rfl, List.mem_singleton.mpr rfl⟩
    · simp only [add_required_by]
      rw [if_neg hl0]
      exact ⟨l0 ++ [cd], rfl, List.mem_append_right _ (List.mem_singleton.mpr rfl)⟩

theorem memAt_update_at (t x i c : Str) (f : Discipline → Discipline) (s : AllData)
    (hf : ∀ d l, d.reqBy = some l → ∃ l', (f d).reqBy = some l' ∧ ∀ y ∈ l, y ∈ l')
    (h : memAt t x s) : memAt t x (update_at i c f s) := by
  obtain ⟨d, l, hgd, hrb, hx⟩ := h
  unfold memAt
  rw [gd_update_at]
  by_cases hc : t.take 2 = i ∧ t = c
  · rw [if_pos hc, hgd]
    obtain ⟨l', hl', hsub⟩ := hf d l hrb
    exact ⟨f d, l', rfl, hl', hsub x hx⟩
  · rw [if_neg hc]
    exact ⟨d, l, hgd, hrb, hx⟩

/-! ## Processing lemmas: one atom, one block, the block list -/

theorem processAtom_spec (s0 : AllData) (P : List (Str × Str)) (dcode : Str)
    (a : Requirement) (s : AllData) (hA : InvA s0 P s) :
    InvA s0 P (processAtom dcode s a).1 ∧
    (processAtom dcode s a).2 = markAtom s0 a ∧
    (∀ t x, memAt t x s → memAt t x (processAtom dcode s a).1) ∧
    ((get_discipline a.code s0).isSome = true →
      memAt a.code dcode (processAtom dcode s a).1) := by
  have hsome := invA_gd_isSome s0 P s hA a.code
  unfold processAtom
  cases h : get_discipline a.code s with
  | none =>
    rw [h] at hsome
    refine ⟨hA, ?_, fun t x hm => hm, ?_⟩
    · unfold markAtom
      rw [if_neg (by rw [← hsome]; simp)]
    · intro hres
      rw [← hsome] at hres
      cases hres
  | some d =>
    rw [h] at hsome
    refine ⟨?_, ?_, ?_, ?_⟩
    · unfold InvA
      rw [strip_update_at _ _ _ (fun d' => stripD_add_required_by d' dcode)]
      exact hA
    · unfold markAtom
      rw [if_pos (by rw [← hsome]; rfl)]
    · intro t x hm
      exact memAt_update_at t x (a.code.take 2) a.code _ s
        (fun d' l hl => add_required_by_mono dcode d' l hl) hm
    · intro _
      unfold memAt
      rw [gd_update_at, if_pos ⟨rfl, rfl⟩, h]
      obtain ⟨l, hl, hcd⟩ := add_required_by_self d dcode
      exact ⟨add_required_by d dcode, l, rfl, hl, hcd⟩

theorem processBlock_spec (s0 : AllData) (P : List (Str × Str)) (dcode : Str) :
    ∀ (blk : List Requirement) (s : AllData), InvA s0 P s →
      InvA s0 P (processBlock dcode s blk).1 ∧
      (processBlock dcode s blk).2 = blk.map (markAtom s0) ∧
      (∀ t x, memAt t x s → memAt t x (processBlock dcode s blk).1) ∧
      (∀ a ∈ blk, (get_discipline a.code s0).isSome = true →
        memAt a.code dcode (processBlock dcode s blk).1) := by
  intro blk
  induction blk with
  | nil =>
    intro s hA
    exact ⟨hA, rfl, fun t x hm => hm, fun a ha => absurd ha (List.not_mem_nil a)⟩
  | cons a rest ih =>
    intro s hA
    obtain ⟨hA1, ha2, hmono1, hest1⟩ := processAtom_spec s0 P dcode a s hA
    obtain ⟨hA2, hrest2, hmono2, hest2⟩ := ih (processAtom dcode s a).1 hA1
    refine ⟨hA2, ?_, ?_, ?_⟩
    · show (processAtom dcode s a).2 :: (processBlock dcode (processAtom dcode s a).1 rest).2
        = markAtom s0 a :: rest.map (markAtom s0)
      rw [ha2, hrest2]
    · intro t x hm
      exact hmono2 t x (hmono1 t x hm)
    · intro b hb hres
      rcases List.mem_cons.mp hb with hb' | hb'
      · subst hb'
        exact hmono2 b.code dcode (hest1 hres)
      · exact hest2 b hb' hres

theorem processBlocks_spec (s0 : AllData) (P : List (Str × Str)) (dcode : Str) :
    ∀ (bs : List (List Requirement)) (s : AllData), InvA s0 P s →
      InvA s0 P (processBlocks dcode s bs).1 ∧
      (processBlocks dcode s bs).2 = markBlocks s0 bs ∧
      (∀ t x, memAt t x s → memAt t x (processBlocks dcode s bs).1) ∧
      (∀ blk ∈ bs, ∀ a ∈ blk, (get_discipline a.code s0).isSome = true →
        memAt a.code dcode (processBlocks dcode s bs).1) := by
  intro bs
  induction bs with
  | nil =>
    intro s hA
    exact ⟨hA, rfl, fun t x hm => hm, fun blk hblk => absurd hblk (List.not_mem_nil blk)⟩
  | cons blk rest ih =>
    intro s hA
    obtain ⟨hA1, hb2, hmono1, hest1⟩ := processBlock_spec s0 P dcode blk s hA
    obtain ⟨hA2, hrest2, hmono2, hest2⟩ := ih (processBlock dcode s blk).1 hA1
    refine ⟨hA2, ?_, ?_, ?_⟩
    · show (processBlock dcode s blk).2 ::
        (processBlocks dcode (processBlock dcode s blk).1 rest).2
        = blk.map (markAtom s0) :: markBlocks s0 rest
      rw [hb2, hrest2]
    · intro t x hm
      exact hmono2 t x (hmono1 t x hm)
    · intro b hb a ha hres
      rcases List.mem_cons.mp hb with hb' | hb'
      · subst hb'
        exact hmono2 a.code dcode (hest1 a ha hres)
      · exact hest2 b hb' a ha hres

/-! ## Helper lemmas: record rewrites and the write-back step -/

theorem reqs_overwrite (d : Discipline) (r : Option (List (List Requirement)))
    (h : d.reqs = r) : ({ d with reqs := r } : Discipline) = d := by
  rcases d with ⟨dc, dn, dcr, drq, drb, dsy⟩
  cases h
  rfl

theorem markD_reqs_none (s0 : AllData) (d : Discipline) (h : d.reqs = none) :
    markD s0 d = d := by
  unfold markD
  rw [h]
  exact reqs_overwrite d none h

theorem markD_reqs_some (s0 : AllData) (d : Discipline) (bs0 : List (List Requirement))
    (h : d.reqs = some bs0) :
    markD s0 d = { d with reqs := some (markBlocks s0 bs0) } := by
  unfold markD
  rw [h]
  rfl

theorem markBlocks_idem (s0 : AllData) (bs : List (List Requirement)) :
    markBlocks s0 (markBlocks s0 bs) = markBlocks s0 bs := by
  unfold markBlocks
  rw [List.map_map]
  apply List.map_congr_left
  intro blk _
  show (blk.map (markAtom s0)).map (markAtom s0) = blk.map (markAtom s0)
  rw [List.map_map]
  apply List.map_congr_left
  intro a _
  exact markAtom_idem s0 a

theorem mem_keys_of_mem {α : Type} (l : List (Str × α)) (p : Str × α) (hp : p ∈ l) :
    p.1 ∈ l.map Prod.fst := List.mem_map.mpr ⟨p, hp, rfl⟩

theorem entry_val_of_alookup {α : Type} (l : List (Str × α)) (k : Str) (v : α)
    (hnd : (l.map Prod.fst).Nodup) (hk : alookup k l = some v) :
    ∀ q ∈ l, q.1 = k → q.2 = v := by
  intro q hq hqk
  have h1 : alookup q.1 l = some q.2 := alookup_of_nodup_mem q.1 l q.2 hnd hq
  rw [hqk, hk] at h1
  injection h1 with h2
  exact h2.symm

theorem stripShard_updShard_comm (c : Str) (f : Discipline → Discipline)
    (hf : ∀ d, stripD (f d) = f (stripD d)) (sh : Shard) :
    stripShard (updShard c f sh) = updShard c f (stripShard sh) := by
  induction sh with
  | nil => rfl
  | cons q rest ih =>
    rcases q with ⟨qk, qd⟩
    show stripShard ((if qk = c then (qk, f qd) else (qk, qd)) :: updShard c f rest) =
      (if qk = c then (qk, f (stripD qd)) else (qk, stripD qd)) :: updShard c f (stripShard rest)
    by_cases h : qk = c
    · rw [if_pos h, if_pos h]
      show (qk, stripD (f qd)) :: stripShard (updShard c f rest) = _
      rw [hf, ih]
    · rw [if_neg h, if_neg h]
      show (qk, stripD qd) :: stripShard (updShard c f rest) = _
      rw [ih]

theorem strip_update_at_comm (i c : Str) (f : Discipline → Discipline)
    (hf : ∀ d, stripD (f d) = f (stripD d)) (s : AllData) :
    strip (update_at i c f s) = update_at i c f (strip s) := by
  induction s with
  | nil => rfl
  | cons p rest ih =>
    rcases p with ⟨pk, pv⟩
    show strip ((if pk = i then (pk, updShard c f pv) else (pk, pv)) :: update_at i c f rest) =
      (if pk = i then (pk, updShard c f (stripShard pv)) else (pk, stripShard pv)) ::
        update_at i c f (strip rest)
    by_cases h : pk = i
    · rw [if_pos h, if_pos h]
      show (pk, stripShard (updShard c f pv)) :: strip (update_at i c f rest) = _
      rw [stripShard_updShard_comm c f hf, ih]
    · rw [if_neg h, if_neg h]
      show (pk, stripShard pv) :: strip (update_at i c f rest) = _
      rw [ih]

theorem updShard_markShard_insert (s0 : AllData) (P : List (Str × Str)) (pk cd : Str)
    (pv : Shard) (dx : Discipline) (bs0 : List (List Requirement))
    (hnd : (pv.map Prod.fst).Nodup)
    (hd : alookup cd pv = some dx)
    (hbs : dx.reqs = some bs0) :
    updShard cd (fun d => { d with reqs := some (markBlocks s0 bs0) })
        (markShard s0 pk P (stripShard pv)) =
      markShard s0 pk ((pk, cd) :: P) (stripShard pv) := by
  induction pv with
  | nil => cases hd
  | cons q rest ih =>
    rcases q with ⟨qk, qd⟩
    rw [List.map_cons] at hnd
    have hnd' := List.nodup_cons.mp hnd
    show updShard cd (fun d => { d with reqs := some (markBlocks s0 bs0) })
        ((if (pk, qk) ∈ P then (qk, markD s0 (stripD qd)) else (qk, stripD qd)) ::
          markShard s0 pk P (stripShard rest)) =
      (if (pk, qk) ∈ (pk, cd) :: P then (qk, markD s0 (stripD qd)) else (qk, stripD qd)) ::
        markShard s0 pk ((pk, cd) :: P) (stripShard rest)
    by_cases hq : qk = cd
    · subst hq
      rw [alookup_cons, if_pos rfl] at hd
      have hqd : qd = dx := by injection hd
      subst hqd
      have habs : ∀ q' ∈ markShard s0 pk P (stripShard rest), q'.1 ≠ qk := by
        intro q' hq' he
        have hmem : q'.1 ∈ (markShard s0 pk P (stripShard rest)).map Prod.fst :=
          mem_keys_of_mem _ q' hq'
        rw [markShard_keys, stripShard_keys] at hmem
        rw [he] at hmem
        exact hnd'.1 hmem
      have htrv : ∀ q' ∈ stripShard rest, pk = pk → q'.1 = qk →
          markD s0 q'.2 = q'.2 := by
        intro q' hq' _ hqc
        exfalso
        have hmem : q'.1 ∈ (stripShard rest).map Prod.fst := mem_keys_of_mem _ q' hq'
        rw [stripShard_keys] at hmem
        rw [hqc] at hmem
        exact hnd'.1 hmem
      have hreqs : (markD s0 (stripD qd)).reqs = some (markBlocks s0 bs0) := by
        show qd.reqs.map (markBlocks s0) = some (markBlocks s0 bs0)
        rw [hbs]
        rfl
      rw [if_pos (List.mem_cons_self _ _)]
      by_cases hp : (pk, qk) ∈ P
      · rw [if_pos hp]
        show (if (qk : Str) = qk then
            (qk, ({ markD s0 (stripD qd) with reqs := some (markBlocks s0 bs0) } : Discipline))
          else (qk, markD s0 (stripD qd))) ::
            updShard qk (fun d => { d with reqs := some (markBlocks s0 bs0) })
              (markShard s0 pk P (stripShard rest)) = _
        rw [if_pos rfl, reqs_overwrite _ _ hreqs,
          updShard_absent _ _ _ habs,
          markShard_cons_triv s0 pk pk qk P (stripShard rest) htrv]
      · rw [if_neg hp]
        show (if (qk : Str) = qk then
            (qk, ({ stripD qd with reqs := some (markBlocks s0 bs0) } : Discipline))
          else (qk, stripD qd)) ::
            updShard qk (fun d => { d with reqs := some (markBlocks s0 bs0) })
              (markShard s0 pk P (stripShard rest)) = _
        rw [if_pos rfl,
          updShard_absent _ _ _ habs,
          markShard_cons_triv s0 pk pk qk P (stripShard rest) htrv]
        have : ({ stripD qd with reqs := some (markBlocks s0 bs0) } : Discipline)
            = markD s0 (stripD qd) := by
          rw [markD_reqs_some s0 (stripD qd) bs0 (by show qd.reqs = some bs0; exact hbs)]
        rw [this]
    · rw [alookup_cons, if_neg hq] at hd
      have hpp : ((pk, qk) ∈ (pk, cd) :: P) ↔ ((pk, qk) ∈ P) := by
        constructor
        · intro hmem
          rcases List.mem_cons.mp hmem with he | h'
          · exact absurd (congrArg Prod.snd he) hq
          · exact h'
        · intro h'
          exact List.mem_cons_of_mem _ h'
      by_cases hp : (pk, qk) ∈ P
      · rw [if_pos hp, if_pos (hpp.mpr hp)]
        show (if (qk : Str) = cd then
            (qk, ({ markD s0 (stripD qd) with reqs := some (markBlocks s0 bs0) } : Discipline))
          else (qk, markD s0 (stripD qd))) ::
            updShard cd (fun d => { d with reqs := some (markBlocks s0 bs0) })
              (markShard s0 pk P (stripShard rest)) = _
        rw [if_neg hq, ih hnd'.2 hd]
      · rw [if_neg hp, if_neg (fun hmem => hp (hpp.mp hmem))]
        show (if (qk : Str) = cd then
            (qk, ({ stripD qd with reqs := some (markBlocks s0 bs0) } : Discipline))
          else (qk, stripD qd)) ::
            updShard cd (fun d => { d with reqs := some (markBlocks s0 bs0) })
              (markShard s0 pk P (stripShard rest)) = _
        rw [if_neg hq, ih hnd'.2 hd]

theorem update_at_markP_insert (s0 : AllData) (P : List (Str × Str)) (i cd : Str)
    (x : AllData) (shx : Shard) (dx : Discipline) (bs0 : List (List Requirement))
    (hnd1 : (x.map Prod.fst).Nodup)
    (hnd2 : ∀ p ∈ x, (p.2.map Prod.fst).Nodup)
    (hsh : alookup i x = some shx)
    (hd : alookup cd shx = some dx)
    (hbs : dx.reqs = some bs0) :
    update_at i cd (fun d => { d with reqs := some (markBlocks s0 bs0) })
        (markP s0 P (strip x)) =
      markP s0 ((i, cd) :: P) (strip x) := by
  induction x with
  | nil => cases hsh
  | cons p rest ih =>
    rcases p with ⟨pk, pv⟩
    rw [List.map_cons] at hnd1
    have hnd1' := List.nodup_cons.mp hnd1
    by_cases hpk : pk = i
    · subst hpk
      rw [alookup_cons, if_pos rfl] at hsh
      have hpv : pv = shx := by injection hsh
      subst hpv
      show (if (pk : Str) = pk then
          (pk, updShard cd (fun d => { d with reqs := some (markBlocks s0 bs0) })
            (markShard s0 pk P (stripShard pv)))
        else (pk, markShard s0 pk P (stripShard pv))) ::
          update_at pk cd (fun d => { d with reqs := some (markBlocks s0 bs0) })
            (markP s0 P (strip rest)) =
        (pk, markShard s0 pk ((pk, cd) :: P) (stripShard pv)) ::
          markP s0 ((pk, cd) :: P) (strip rest)
      rw [if_pos rfl,
        updShard_markShard_insert s0 P pk cd pv dx bs0
          (hnd2 (pk, pv) (List.mem_cons_self _ _)) hd hbs]
      have habs : ∀ p' ∈ markP s0 P (strip rest), p'.1 ≠ pk := by
        intro p' hp' he
        have hmem : p'.1 ∈ (markP s0 P (strip rest)).map Prod.fst :=
          mem_keys_of_mem _ p' hp'
        rw [markP_keys, strip_keys] at hmem
        rw [he] at hmem
        exact hnd1'.1 hmem
      have htrv : ∀ p' ∈ strip rest, ∀ q' ∈ p'.2, p'.1 = pk → q'.1 = cd →
          markD s0 q'.2 = q'.2 := by
        intro p' hp' q' _ hpi _
        exfalso
        have hmem : p'.1 ∈ (strip rest).map Prod.fst := mem_keys_of_mem _ p' hp'
        rw [strip_keys] at hmem
        rw [hpi] at hmem
        exact hnd1'.1 hmem
      rw [update_at_absent _ _ _ _ habs,
        markP_cons_triv s0 pk cd P (strip rest) htrv]
    · rw [alookup_cons, if_neg hpk] at hsh
      show (if (pk : Str) = i then
          (pk, updShard cd (fun d => { d with reqs := some (markBlocks s0 bs0) })
            (markShard s0 pk P (stripShard pv)))
        else (pk, markShard s0 pk P (stripShard pv))) ::
          update_at i cd (fun d => { d with reqs := some (markBlocks s0 bs0) })
            (markP s0 P (strip rest)) =
        (pk, markShard s0 pk ((i, cd) :: P) (stripShard pv)) ::
          markP s0 ((i, cd) :: P) (strip rest)
      rw [if_neg hpk,
        ih hnd1'.2 (fun p' hp' => hnd2 p' (List.mem_cons_of_mem _ hp')) hsh,
        markShard_cons_triv s0 pk i cd P (stripShard pv)
          (fun q' _ hpi _ => absurd hpi hpk)]

/-! ## Processing one discipline preserves and extends both invariants -/

theorem processDiscipline_spec (s0 : AllData)
    (hnd1 : (s0.map Prod.fst).Nodup)
    (hnd2 : ∀ p ∈ s0, (p.2.map Prod.fst).Nodup)
    (P : List (Str × Str)) (i cd : Str) (s : AllData)
    (hA : InvA s0 P s) (hB : InvB s0 P s) :
    InvA s0 ((i, cd) :: P) (processDiscipline i s cd) ∧
    InvB s0 ((i, cd) :: P) (processDiscipline i s cd) := by
  cases hsh : alookup i s with
  | none =>
    have hpd : processDiscipline i s cd = s := by
      unfold processDiscipline
      simp only [hsh]
    rw [hpd]
    have h0 : alookup i s0 = none := by
      have h := invA_alookup s0 P s hA i
      rw [hsh] at h
      cases h0' : alookup i s0 with
      | none => rfl
      | some sh0 => rw [h0'] at h; cases h
    have hno : ∀ p ∈ s0, p.1 ≠ i := (alookup_eq_none_iff i s0).mp h0
    constructor
    · unfold InvA at hA ⊢
      rw [hA, markP_cons_triv s0 i cd P (strip s0) ?_]
      intro p hp q hq hpi hqc
      exfalso
      have hmem : p.1 ∈ (strip s0).map Prod.fst := mem_keys_of_mem _ p hp
      rw [strip_keys] at hmem
      obtain ⟨p0, hp0, he⟩ := List.mem_map.mp hmem
      exact hno p0 hp0 (by rw [he, hpi])
    · intro i' c' hmem sh0 d0 hsh0 hd0 blk hblk a ha hres
      rcases List.mem_cons.mp hmem with he | hmem'
      · have hi' : i' = i := congrArg Prod.fst he
        rw [hi', h0] at hsh0
        cases hsh0
      · exact hB i' c' hmem' sh0 d0 hsh0 hd0 blk hblk a ha hres
  | some sh =>
    obtain ⟨sh0, hsh0, hrel⟩ := invA_shard_rel s0 P s hA i sh hsh
    have hnd2i : (sh0.map Prod.fst).Nodup := hnd2 (i, sh0) (alookup_mem i s0 sh0 hsh0)
    cases hd : alookup cd sh with
    | none =>
      have hpd : processDiscipline i s cd = s := by
        unfold processDiscipline
        simp only [hsh, hd]
      rw [hpd]
      have hd0 : alookup cd sh0 = none := by
        have h := shard_rel_alookup s0 P i sh sh0 hrel cd
        rw [hd] at h
        cases h0' : alookup cd sh0 with
        | none => rfl
        | some d0 => rw [h0'] at h; cases h
      have hnocd : ∀ q ∈ sh0, q.1 ≠ cd := (alookup_eq_none_iff cd sh0).mp hd0
      constructor
      · unfold InvA at hA ⊢
        rw [hA, markP_cons_triv s0 i cd P (strip s0) ?_]
        intro p hp q hq hpi hqc
        exfalso
        unfold strip at hp
        obtain ⟨p0, hp0, he⟩ := List.mem_map.mp hp
        have hp1 : p0.1 = i := by rw [← hpi, ← he]
        have hps : p.2 = stripShard p0.2 := by rw [← he]
        have hpv : p0.2 = sh0 := entry_val_of_alookup s0 i sh0 hnd1 hsh0 p0 hp0 hp1
        rw [hps, hpv] at hq
        unfold stripShard at hq
        obtain ⟨q0, hq0, hqe⟩ := List.mem_map.mp hq
        have hq1 : q0.1 = cd := by rw [← hqc, ← hqe]
        exact hnocd q0 hq0 hq1
      · intro i' c' hmem sh0' d0' hsh0' hd0' blk hblk a ha hres
        rcases List.mem_cons.mp hmem with he | hmem'
        · have hi' : i' = i := congrArg Prod.fst he
          have hc' : c' = cd := congrArg Prod.snd he
          rw [hi', hsh0] at hsh0'
          injection hsh0' with hes
          rw [hc', ← hes, hd0] at hd0'
          cases hd0'
        · exact hB i' c' hmem' sh0' d0' hsh0' hd0' blk hblk a ha hres
    | some d =>
      obtain ⟨d0, hd0, hdrel⟩ := shard_rel_disc s0 P i sh sh0 hrel cd d hd
      cases hbs : d.reqs with
      | none =>
        have hpd : processDiscipline i s cd = s := by
          unfold processDiscipline
          simp only [hsh, hd, hbs]
        rw [hpd]
        have hd0r : d0.reqs = none := by
          by_cases hp : (i, cd) ∈ P
          · rw [if_pos hp] at hdrel
            have h2 : (markD s0 (stripD d0)).reqs = none := by
              rw [← hdrel]; exact hbs
            have h3 : d0.reqs.map (markBlocks s0) = none := h2
            cases hd0r' : d0.reqs with
            | none => rfl
            | some bs => rw [hd0r'] at h3; cases h3
          · rw [if_neg hp] at hdrel
            have h2 : (stripD d0).reqs = none := by
              rw [← hdrel]; exact hbs
            exact h2
        constructor
        · unfold InvA at hA ⊢
          rw [hA, markP_cons_triv s0 i cd P (strip s0) ?_]
          intro p hp q hq hpi hqc
          unfold strip at hp
          obtain ⟨p0, hp0, he⟩ := List.mem_map.mp hp
          have hp1 : p0.1 = i := by rw [← hpi, ← he]
          have hps : p.2 = stripShard p0.2 := by rw [← he]
          have hpv : p0.2 = sh0 := entry_val_of_alookup s0 i sh0 hnd1 hsh0 p0 hp0 hp1
          rw [hps, hpv] at hq
          unfold stripShard at hq
          obtain ⟨q0, hq0, hqe⟩ := List.mem_map.mp hq
          have hq1 : q0.1 = cd := by rw [← hqc, ← hqe]
          have hqv : q0.2 = d0 := entry_val_of_alookup sh0 cd d0 hnd2i hd0 q0 hq0 hq1
          have hq2 : q.2 = stripD q0.2 := by rw [← hqe]
          rw [hq2, hqv]
          exact markD_reqs_none s0 (stripD d0) hd0r
        · intro i' c' hmem sh0' d0' hsh0' hd0' blk hblk a ha hres
          rcases List.mem_cons.mp hmem with he | hmem'
          · have hi' : i' = i := congrArg Prod.fst he
            have hc' : c' = cd := congrArg Prod.snd he
            rw [hi', hsh0] at hsh0'
            injection hsh0' with hes
            rw [hc', ← hes, hd0] at hd0'
            injection hd0' with hed
            rw [← hed, hd0r] at hblk
            exact absurd hblk (List.not_mem_nil blk)
          · exact hB i' c' hmem' sh0' d0' hsh0' hd0' blk hblk a ha hres
      | some blocks =>
        have hpd : processDiscipline i s cd =
            update_at i cd (fun d' => { d' with reqs := some (processBlocks cd s blocks).2 })
              (processBlocks cd s blocks).1 := by
          unfold processDiscipline
          simp only [hsh, hd, hbs]
        rw [hpd]
        have hbs0 : ∃ bs0, d0.reqs = some bs0 ∧
            (blocks = bs0 ∨ blocks = markBlocks s0 bs0) := by
          by_cases hp : (i, cd) ∈ P
          · rw [if_pos hp] at hdrel
            have h2 : (markD s0 (stripD d0)).reqs = some blocks := by
              rw [← hdrel]; exact hbs
            have h3 : d0.reqs.map (markBlocks s0) = some blocks := h2
            cases hd0r' : d0.reqs with
            | none => rw [hd0r'] at h3; cases h3
            | some bs =>
              rw [hd0r'] at h3
              injection h3 with h4
              exact ⟨bs, rfl, Or.inr h4.symm⟩
          · rw [if_neg hp] at hdrel
            have h2 : (stripD d0).reqs = some blocks := by
              rw [← hdrel]; exact hbs
            exact ⟨blocks, h2, Or.inl rfl⟩
        obtain ⟨bs0, hd0r, hrelbs⟩ := hbs0
        have hmb : markBlocks s0 blocks = markBlocks s0 bs0 := by
          rcases hrelbs with hbb | hbb
          · rw [hbb]
          · rw [hbb, markBlocks_idem]
        obtain ⟨hA1, hout, hmono1, hest1⟩ := processBlocks_spec s0 P cd blocks s hA
        constructor
        · unfold InvA
          rw [hout, hmb,
            strip_update_at_comm i cd
              (fun d' => { d' with reqs := some (markBlocks s0 bs0) }) (fun d' => rfl)]
          unfold InvA at hA1
          rw [hA1]
          exact update_at_markP_insert s0 P i cd s0 sh0 d0 bs0 hnd1 hnd2 hsh0 hd0 hd0r
        · intro i' c' hmem sh0' d0' hsh0' hd0' blk hblk a ha hres
          apply memAt_update_at a.code c' i cd
            (fun d' => { d' with reqs := some (processBlocks cd s blocks).2 })
            (processBlocks cd s blocks).1
            (fun d' l hl => ⟨l, hl, fun y hy => hy⟩)
          rcases List.mem_cons.mp hmem with he | hmem'
          · have hi' : i' = i := congrArg Prod.fst he
            have hc' : c' = cd := congrArg Prod.snd he
            rw [hi', hsh0] at hsh0'
            injection hsh0' with hes
            rw [hc', ← hes, hd0] at hd0'
            injection hd0' with hed
            rw [← hed, hd0r] at hblk
            have hblk' : blk ∈ bs0 := hblk
            rw [hc']
            rcases hrelbs with hbb | hbb
            · exact hest1 blk (by rw [hbb]; exact hblk') a ha hres
            · have hmem2 : blk.map (markAtom s0) ∈ blocks := by
                rw [hbb]
                exact List.mem_map.mpr ⟨blk, hblk', rfl⟩
              have ha2 : markAtom s0 a ∈ blk.map (markAtom s0) :=
                List.mem_map.mpr ⟨a, ha, rfl⟩
              have hres2 : (get_discipline (markAtom s0 a).code s0).isSome = true := by
                rw [markAtom_code]; exact hres
              have h := hest1 _ hmem2 _ ha2 hres2
              rw [markAtom_code] at h
              exact h
          · exact hmono1 _ _ (hB i' c' hmem' sh0' d0' hsh0' hd0' blk hblk a ha hres)

/-! ## Folding the pass over every discipline and every shard -/

theorem foldDiscs_spec (s0 : AllData)
    (hnd1 : (s0.map Prod.fst).Nodup)
    (hnd2 : ∀ p ∈ s0, (p.2.map Prod.fst).Nodup) (i : Str) :
    ∀ (cds : List Str) (P : List (Str × Str)) (s : AllData), InvA s0 P s → InvB s0 P s →
      InvA s0 ((cds.map (fun c => (i, c))) ++ P) (cds.foldl (processDiscipline i) s) ∧
      InvB s0 ((cds.map (fun c => (i, c))) ++ P) (cds.foldl (processDiscipline i) s) := by
  intro cds
  induction cds with
  | nil => intro P s hA hB; exact ⟨hA, hB⟩
  | cons cd rest ih =>
    intro P s hA hB
    obtain ⟨hA1, hB1⟩ := processDiscipline_spec s0 hnd1 hnd2 P i cd s hA hB
    obtain ⟨hA2, hB2⟩ := ih ((i, cd) :: P) (processDiscipline i s cd) hA1 hB1
    have hiff : ∀ pr : Str × Str,
        pr ∈ (rest.map (fun c => (i, c)) ++ ((i, cd) :: P)) ↔
        pr ∈ ((cd :: rest).map (fun c => (i, c)) ++ P) := by
      intro pr
      show pr ∈ (rest.map (fun c => (i, c)) ++ ((i, cd) :: P)) ↔
        pr ∈ ((i, cd) :: (rest.map (fun c => (i, c)) ++ P))
      simp only [List.mem_append, List.mem_cons]
      tauto
    constructor
    · show InvA s0 ((cd :: rest).map (fun c => (i, c)) ++ P)
        (rest.foldl (processDiscipline i) (processDiscipline i s cd))
      unfold InvA at hA2 ⊢
      rw [hA2]
      exact markP_congr s0 _ _ (strip s0) hiff
    · intro i' c' hmem
      exact hB2 i' c' ((hiff (i', c')).mpr hmem)

theorem update_initials_spec (s0 : AllData)
    (hnd1 : (s0.map Prod.fst).Nodup)
    (hnd2 : ∀ p ∈ s0, (p.2.map Prod.fst).Nodup)
    (i : Str) (P : List (Str × Str)) (s : AllData)
    (hA : InvA s0 P s) (hB : InvB s0 P s) :
    InvA s0 (posOf i s0 ++ P) (update_initials_requirements i s) ∧
    InvB s0 (posOf i s0 ++ P) (update_initials_requirements i s) := by
  cases hsh : alookup i s with
  | none =>
    have h0 : alookup i s0 = none := by
      have h := invA_alookup s0 P s hA i
      rw [hsh] at h
      cases h0' : alookup i s0 with
      | none => rfl
      | some sh0 => rw [h0'] at h; cases h
    have hui : update_initials_requirements i s = s := by
      unfold update_initials_requirements
      simp only [hsh]
    have hpos : posOf i s0 = [] := by
      unfold posOf
      rw [h0]
    rw [hui, hpos]
    exact ⟨hA, hB⟩
  | some sh =>
    have hui : update_initials_requirements i s =
        (sh.map Prod.fst).foldl (processDiscipline i) s := by
      unfold update_initials_requirements
      simp only [hsh]
    rw [hui]
    obtain ⟨sh0, hsh0, hrel⟩ := invA_shard_rel s0 P s hA i sh hsh
    have hkeys : sh.map Prod.fst = sh0.map Prod.fst := by
      have h1 := congrArg (List.map Prod.fst) hrel
      rw [stripShard_keys, markShard_keys, stripShard_keys] at h1
      exact h1
    have hpos : posOf i s0 = (sh.map Prod.fst).map (fun c => (i, c)) := by
      unfold posOf
      rw [hsh0, hkeys, List.map_map]
      rfl
    rw [hpos]
    exact foldDiscs_spec s0 hnd1 hnd2 i (sh.map Prod.fst) P s hA hB

theorem resolve_fold_spec (s0 : AllData)
    (hnd1 : (s0.map Prod.fst).Nodup)
    (hnd2 : ∀ p ∈ s0, (p.2.map Prod.fst).Nodup) :
    ∀ (ks : List Str) (P : List (Str × Str)) (s : AllData), InvA s0 P s → InvB s0 P s →
      InvA s0 (posList s0 ks ++ P)
        (ks.foldl (fun s' i => update_initials_requirements i s') s) ∧
      InvB s0 (posList s0 ks ++ P)
        (ks.foldl (fun s' i => update_initials_requirements i s') s) := by
  intro ks
  induction ks with
  | nil => intro P s hA hB; exact ⟨hA, hB⟩
  | cons i rest ih =>
    intro P s hA hB
    obtain ⟨hA1, hB1⟩ := update_initials_spec s0 hnd1 hnd2 i P s hA hB
    obtain ⟨hA2, hB2⟩ :=
      ih (posOf i s0 ++ P) (update_initials_requirements i s) hA1 hB1
    have hiff : ∀ pr : Str × Str,
        pr ∈ (posList s0 rest ++ (posOf i s0 ++ P)) ↔
        pr ∈ (posList s0 (i :: rest) ++ P) := by
      intro pr
      show pr ∈ (posList s0 rest ++ (posOf i s0 ++ P)) ↔
        pr ∈ ((posOf i s0 ++ posList s0 rest) ++ P)
      simp only [List.mem_append]
      tauto
    constructor
    · show InvA s0 (posList s0 (i :: rest) ++ P)
        (rest.foldl (fun s' i' => update_initials_requirements i' s')
          (update_initials_requirements i s))
      unfold InvA at hA2 ⊢
      rw [hA2]
      exact markP_congr s0 _ _ (strip s0) hiff
    · intro i' c' hmem
      exact hB2 i' c' ((hiff (i', c')).mpr hmem)

theorem resolveAll_spec (s0 : AllData) (hwf : WF s0) :
    InvA s0 (posList s0 (s0.map Prod.fst)) (resolveAll s0) ∧
    InvB s0 (posList s0 (s0.map Prod.fst)) (resolveAll s0) := by
  obtain ⟨hnd1, hnd2⟩ := hwf
  have base_A : InvA s0 [] s0 := by
    unfold InvA
    rw [markP_nilP]
  have base_B : InvB s0 [] s0 := fun i c hmem => absurd hmem (List.not_mem_nil _)
  have h := resolve_fold_spec s0 hnd1 hnd2 (s0.map Prod.fst) [] s0 base_A base_B
  rw [List.append_nil] at h
  exact h

theorem mem_posList (s0 : AllData) (ks : List Str) (i : Str) (hi : i ∈ ks)
    (pr : Str × Str) (hpr : pr ∈ posOf i s0) : pr ∈ posList s0 ks := by
  induction ks with
  | nil => cases hi
  | cons k rest ih =>
    rcases List.mem_cons.mp hi with he | hi'
    · subst he
      exact List.mem_append_left _ hpr
    · exact List.mem_append_right _ (ih hi')

theorem pos_mem_posList (s0 : AllData) (i : Str) (sh0 : Shard) (c : Str)
    (d0 : Discipline) (hsh0 : alookup i s0 = some sh0) (hd0 : alookup c sh0 = some d0) :
    (i, c) ∈ posList s0 (s0.map Prod.fst) := by
  apply mem_posList s0 (s0.map Prod.fst) i
  · exact mem_keys_of_mem s0 (i, sh0) (alookup_mem i s0 sh0 hsh0)
  · unfold posOf
    rw [hsh0]
    exact List.mem_map.mpr ⟨(c, d0), alookup_mem c sh0 d0 hd0, rfl⟩

/-! ## Erasure lemmas for the frame property -/

theorem eraseAtom_markAtom (s0 : AllData) (a : Requirement) :
    eraseAtom (markAtom s0 a) = eraseAtom a := by
  unfold markAtom
  by_cases h : (get_discipline a.code s0).isSome = true
  · rw [if_pos h]
  · rw [if_neg h]
    rfl

theorem eraseBlocks_markBlocks (s0 : AllData) (bs : List (List Requirement)) :
    (markBlocks s0 bs).map (fun blk => blk.map eraseAtom) =
      bs.map (fun blk => blk.map eraseAtom) := by
  unfold markBlocks
  rw [List.map_map]
  apply List.map_congr_left
  intro blk _
  show (blk.map (markAtom s0)).map eraseAtom = blk.map eraseAtom
  rw [List.map_map]
  apply List.map_congr_left
  intro a _
  exact eraseAtom_markAtom s0 a

theorem eraseD_markD (s0 : AllData) (d : Discipline) :
    eraseD (markD s0 d) = eraseD d := by
  rcases d with ⟨dc, dn, dcr, drq, drb, dsy⟩
  unfold eraseD markD
  cases drq with
  | none => rfl
  | some bs =>
    show ({ code := dc, name := dn, credits := dcr,
            reqs := some ((markBlocks s0 bs).map (fun blk => blk.map eraseAtom)),
            reqBy := none, syllabus := dsy } : Discipline) =
      { code := dc, name := dn, credits := dcr,
        reqs := some (bs.map (fun blk => blk.map eraseAtom)),
        reqBy := none, syllabus := dsy }
    rw [eraseBlocks_markBlocks]

theorem eraseD_stripD (d : Discipline) : eraseD (stripD d) = eraseD d := rfl

theorem eraseMut_strip (s : AllData) : eraseMut (strip s) = eraseMut s := by
  induction s with
  | nil => rfl
  | cons p rest ih =>
    show (p.1, (stripShard p.2).map (fun q => (q.1, eraseD q.2))) :: eraseMut (strip rest) =
      (p.1, p.2.map (fun q => (q.1, eraseD q.2))) :: eraseMut rest
    rw [ih]
    unfold stripShard
    rw [List.map_map]
    rfl

theorem eraseShard_markShard (s0 : AllData) (i : Str) (P : List (Str × Str)) (sh : Shard) :
    (markShard s0 i P sh).map (fun q => (q.1, eraseD q.2)) =
      sh.map (fun q => (q.1, eraseD q.2)) := by
  induction sh with
  | nil => rfl
  | cons q rest ih =>
    by_cases h : (i, q.1) ∈ P
    · show ((if (i, q.1) ∈ P then (q.1, markD s0 q.2) else q).1,
        eraseD (if (i, q.1) ∈ P then (q.1, markD s0 q.2) else q).2) ::
          (markShard s0 i P rest).map (fun q' => (q'.1, eraseD q'.2)) = _
      rw [if_pos h, ih]
      show (q.1, eraseD (markD s0 q.2)) :: _ = (q.1, eraseD q.2) :: _
      rw [eraseD_markD]
    · show ((if (i, q.1) ∈ P then (q.1, markD s0 q.2) else q).1,
        eraseD (if (i, q.1) ∈ P then (q.1, markD s0 q.2) else q).2) ::
          (markShard s0 i P rest).map (fun q' => (q'.1, eraseD q'.2)) = _
      rw [if_neg h, ih]
      rfl

theorem eraseMut_markP (s0 : AllData) (P : List (Str × Str)) (s : AllData) :
    eraseMut (markP s0 P s) = eraseMut s := by
  induction s with
  | nil => rfl
  | cons p rest ih =>
    show (p.1, (markShard s0 p.1 P p.2).map (fun q => (q.1, eraseD q.2))) ::
        eraseMut (markP s0 P rest) =
      (p.1, p.2.map (fun q => (q.1, eraseD q.2))) :: eraseMut rest
    rw [ih, eraseShard_markShard]

/-! ## C7: the resolution pass is a frame — only `special` and `reqBy` change -/

/-- C7: for every well-formed catalog, the resolution pass changes nothing
except atoms' `special` annotations and disciplines' `reqBy` lists: erasing
exactly those two mutation targets (`eraseMut`) yields identical states
before and after, so every discipline's code, name, credits, syllabus and
the whole group/atom structure (codes and partial flags included) of its
requirement expression are untouched. -/
theorem c7_resolution_frame (s : AllData) (hwf : WF s) :
    eraseMut (resolveAll s) = eraseMut s := by
  obtain ⟨hA, _⟩ := resolveAll_spec s hwf
  unfold InvA at hA
  calc eraseMut (resolveAll s)
      = eraseMut (strip (resolveAll s)) := (eraseMut_strip _).symm
    _ = eraseMut (markP s (posList s (s.map Prod.fst)) (strip s)) := by rw [hA]
    _ = eraseMut (strip s) := eraseMut_markP s _ (strip s)
    _ = eraseMut s := eraseMut_strip s

theorem c7_resolution_frame_witness :
    eraseMut (resolveAll exC1) = eraseMut exC1 :=
  c7_resolution_frame exC1 (by decide)

/-! ## C1: `special = true` exactly on unresolvable atoms -/

/-- C1: over a well-formed catalog whose parser-produced atoms carry no
`special` flag yet, the global resolution pass marks an atom
`special = true` exactly when its code is not resolvable in the (final)
index: every atom of the resolved catalog satisfies
`special = some true ↔ get_discipline code = none`. -/
theorem c1_special_iff_unresolvable (s : AllData) (hwf : WF s) (hns : NoSpecial s)
    (i : Str) (sh : Shard) (c : Str) (d : Discipline)
    (bs : List (List Requirement)) (blk : List Requirement) (a : Requirement)
    (h1 : alookup i (resolveAll s) = some sh) (h2 : alookup c sh = some d)
    (h3 : d.reqs = some bs) (h4 : blk ∈ bs) (h5 : a ∈ blk) :
    (a.special = some true ↔ get_discipline a.code (resolveAll s) = none) := by
  obtain ⟨hA, _⟩ := resolveAll_spec s hwf
  obtain ⟨sh0, hsh0, hrel⟩ := invA_shard_rel s _ (resolveAll s) hA i sh h1
  obtain ⟨d0, hd0, hdrel⟩ := shard_rel_disc s _ i sh sh0 hrel c d h2
  have hcov : (i, c) ∈ posList s (s.map Prod.fst) :=
    pos_mem_posList s i sh0 c d0 hsh0 hd0
  rw [if_pos hcov] at hdrel
  have hreqs : d0.reqs.map (markBlocks s) = some bs := by
    have h := congrArg Discipline.reqs hdrel
    have h' : d.reqs = d0.reqs.map (markBlocks s) := h
    rw [← h', h3]
  obtain ⟨bs0, hd0r, hbs0⟩ : ∃ bs0, d0.reqs = some bs0 ∧ bs = markBlocks s bs0 := by
    cases hd0r' : d0.reqs with
    | none => rw [hd0r'] at hreqs; cases hreqs
    | some bs0 =>
      rw [hd0r'] at hreqs
      injection hreqs with h'
      exact ⟨bs0, rfl, h'.symm⟩
  rw [hbs0] at h4
  obtain ⟨blk0, hblk0, hble⟩ := List.mem_map.mp h4
  rw [← hble] at h5
  obtain ⟨a0, ha0, hae⟩ := List.mem_map.mp h5
  have hns0 : a0.special = none := by
    apply hns (i, sh0) (alookup_mem i s sh0 hsh0) (c, d0) (alookup_mem c sh0 d0 hd0)
      blk0 ?_ a0 ha0
    show blk0 ∈ d0.reqs.getD []
    rw [hd0r]
    exact hblk0
  have hFs : (get_discipline a.code (resolveAll s)).isSome =
      (get_discipline a.code s).isSome :=
    invA_gd_isSome s _ (resolveAll s) hA a.code
  subst hae
  rw [markAtom_code] at hFs
  unfold markAtom
  by_cases hres : (get_discipline a0.code s).isSome = true
  · rw [if_pos hres]
    constructor
    · intro hsp
      rw [hns0] at hsp
      cases hsp
    · intro hnone
      rw [hnone] at hFs
      rw [hres] at hFs
      cases hFs
  · rw [if_neg hres]
    have hfalse : (get_discipline a0.code s).isSome = false := by
      cases hx : (get_discipline a0.code s).isSome with
      | false => rfl
      | true => exact absurd hx hres
    rw [hfalse] at hFs
    constructor
    · intro _
      cases hgd : get_discipline a0.code (resolveAll s) with
      | none => rfl
      | some dd => rw [hgd] at hFs; cases hFs
    · intro _
      rfl

theorem c1_special_iff_unresolvable_witness :
    ((⟨strToL "XX999", none, some true⟩ : Requirement).special = some true ↔
      get_discipline (strToL "XX999") (resolveAll exC1) = none) :=
  c1_special_iff_unresolvable exC1 (by decide) (by decide)
    (strToL "MC")
    [(strToL "MC102",
      { code := strToL "MC102", name := strToL "MC102", credits := 2, reqs := none,
        reqBy := some [strToL "MC202"], syllabus := [] }),
     (strToL "MC202",
      { code := strToL "MC202", name := strToL "MC202", credits := 2,
        reqs := some [[⟨strToL "MC102", none, none⟩, ⟨strToL "XX999", none, some true⟩]],
        reqBy := none, syllabus := [] })]
    (strToL "MC202")
    { code := strToL "MC202", name := strToL "MC202", credits := 2,
      reqs := some [[⟨strToL "MC102", none, none⟩, ⟨strToL "XX999", none, some true⟩]],
      reqBy := none, syllabus := [] }
    [[⟨strToL "MC102", none, none⟩, ⟨strToL "XX999", none, some true⟩]]
    [⟨strToL "MC102", none, none⟩, ⟨strToL "XX999", none, some true⟩]
    ⟨strToL "XX999", none, some true⟩
    (by decide) (by decide) (by decide) (by decide) (by decide)

/-! ## C2 amended: every resolvable reference lands in `reqBy` at least once -/

/-- C2 amended: after one resolution pass over a well-formed, fresh
(`NoSpecial`) catalog, for every discipline `d` and every non-special atom
`a` of its requirements, the discipline keyed by `a.code` holds `d`'s code
in its `reqBy` list at least once.  (`reqBy` is an append-only list, not a
set: each referencing occurrence appends its own copy and a second pass
appends them again, as the counterexample records.) -/
theorem c2_amended_reqby_membership (s : AllData) (hwf : WF s) (hns : NoSpecial s)
    (i : Str) (sh : Shard) (c : Str) (d : Discipline)
    (bs : List (List Requirement)) (blk : List Requirement) (a : Requirement)
    (h1 : alookup i (resolveAll s) = some sh) (h2 : alookup c sh = some d)
    (h3 : d.reqs = some bs) (h4 : blk ∈ bs) (h5 : a ∈ blk)
    (h6 : a.special ≠ some true) :
    ∃ d' l, get_discipline a.code (resolveAll s) = some d' ∧
      d'.reqBy = some l ∧ c ∈ l := by
  obtain ⟨hA, hB⟩ := resolveAll_spec s hwf
  obtain ⟨sh0, hsh0, hrel⟩ := invA_shard_rel s _ (resolveAll s) hA i sh h1
  obtain ⟨d0, hd0, hdrel⟩ := shard_rel_disc s _ i sh sh0 hrel c d h2
  have hcov : (i, c) ∈ posList s (s.map Prod.fst) :=
    pos_mem_posList s i sh0 c d0 hsh0 hd0
  rw [if_pos hcov] at hdrel
  have hreqs : d0.reqs.map (markBlocks s) = some bs := by
    have h : d.reqs = d0.reqs.map (markBlocks s) := congrArg Discipline.reqs hdrel
    rw [← h, h3]
  obtain ⟨bs0, hd0r, hbs0⟩ : ∃ bs0, d0.reqs = some bs0 ∧ bs = markBlocks s bs0 := by
    cases hd0r' : d0.reqs with
    | none => rw [hd0r'] at hreqs; cases hreqs
    | some bs0 =>
      rw [hd0r'] at hreqs
      injection hreqs with h'
      exact ⟨bs0, rfl, h'.symm⟩
  rw [hbs0] at h4
  obtain ⟨blk0, hblk0, hble⟩ := List.mem_map.mp h4
  rw [← hble] at h5
  obtain ⟨a0, ha0, hae⟩ := List.mem_map.mp h5
  have hns0 : a0.special = none := by
    apply hns (i, sh0) (alookup_mem i s sh0 hsh0) (c, d0) (alookup_mem c sh0 d0 hd0)
      blk0 ?_ a0 ha0
    show blk0 ∈ d0.reqs.getD []
    rw [hd0r]
    exact hblk0
  have hres : (get_discipline a0.code s).isSome = true := by
    cases hx : (get_discipline a0.code s).isSome with
    | true => rfl
    | false =>
      exfalso
      apply h6
      subst hae
      unfold markAtom
      rw [if_neg (by rw [hx]; exact Bool.false_ne_true)]
  have hmm := hB i c hcov sh0 d0 hsh0 hd0 blk0
    (by show blk0 ∈ d0.reqs.getD []; rw [hd0r]; exact hblk0) a0 ha0 hres
  obtain ⟨d', l, hgd, hrb, hcl⟩ := hmm
  subst hae
  rw [markAtom_code]
  exact ⟨d', l, hgd, hrb, hcl⟩

theorem c2_amended_reqby_membership_witness :
    ∃ d' l, get_discipline (strToL "MC102") (resolveAll exC2) = some d' ∧
      d'.reqBy = some l ∧ strToL "MC202" ∈ l := by
  have h := c2_amended_reqby_membership exC2 (by decide) (by decide)
    (strToL "MC")
    [(strToL "MC102",
      { code := strToL "MC102", name := strToL "MC102", credits := 2, reqs := none,
        reqBy := some [strToL "MC202", strToL "MC202"], syllabus := [] }),
     (strToL "MC202",
      { code := strToL "MC202", name := strToL "MC202", credits := 2,
        reqs := some [[⟨strToL "MC102", none, none⟩], [⟨strToL "MC102", none, none⟩]],
        reqBy := none, syllabus := [] })]
    (strToL "MC202")
    { code := strToL "MC202", name := strToL "MC202", credits := 2,
      reqs := some [[⟨strToL "MC102", none, none⟩], [⟨strToL "MC102", none, none⟩]],
      reqBy := none, syllabus := [] }
    [[⟨strToL "MC102", none, none⟩], [⟨strToL "MC102", none, none⟩]]
    [⟨strToL "MC102", none, none⟩]
    ⟨strToL "MC102", none, none⟩
    (by decide) (by decide) (by decide) (by decide) (by decide) (by decide)
  exact h

/-! ## Split/join inversion for the round-trip claim -/

theorem leadsWith_self_append (u t : Str) : leadsWith u (u ++ t) = true := by
  induction u with
  | nil => rfl
  | cons c u' ih =>
    show ((c == c) && leadsWith u' (u' ++ t)) = true
    rw [ih, beq_self_eq_true]
    rfl

theorem splitGo_skip (c0 : Char) (sr : Str) (u : Str) :
    ∀ t, splitGo c0 sr u.length (u ++ t) = splitGo c0 sr 0 t := by
  induction u with
  | nil => intro t; rfl
  | cons x u' ih =>
    intro t
    show splitGo c0 sr u'.length (u' ++ t) = splitGo c0 sr 0 t
    exact ih t

theorem splitGo_cons_ne (c0 : Char) (sr : Str) (c : Char) (rest : Str) (hc : c ≠ c0) :
    splitGo c0 sr 0 (c :: rest) =
      match splitGo c0 sr 0 rest with
      | [] => [[c]]
      | p :: ps => (c :: p) :: ps := by
  have hl : leadsWith (c0 :: sr) (c :: rest) = false := by
    show ((c0 == c) && leadsWith sr rest) = false
    have hb : (c0 == c) = false := by
      simpa using (Ne.symm hc)
    rw [hb, Bool.false_and]
  show (if leadsWith (c0 :: sr) (c :: rest) = true then
      [] :: splitGo c0 sr sr.length rest
    else
      match splitGo c0 sr 0 rest with
      | [] => [[c]]
      | p :: ps => (c :: p) :: ps) = _
  rw [hl, if_neg Bool.false_ne_true]

theorem splitGo_sep (c0 : Char) (sr t : Str) :
    splitGo c0 sr 0 ((c0 :: sr) ++ t) = [] :: splitGo c0 sr 0 t := by
  show (if leadsWith (c0 :: sr) (c0 :: (sr ++ t)) = true then
      [] :: splitGo c0 sr sr.length (sr ++ t)
    else
      match splitGo c0 sr 0 (sr ++ t) with
      | [] => [[c0]]
      | p :: ps => (c0 :: p) :: ps) = [] :: splitGo c0 sr 0 t
  have hl : leadsWith (c0 :: sr) (c0 :: (sr ++ t)) = true := leadsWith_self_append (c0 :: sr) t
  rw [hl, if_pos rfl, splitGo_skip]

theorem splitGo_append (c0 : Char) (sr : Str) (p t q : Str) (qs : List Str)
    (hp : ∀ c ∈ p, c ≠ c0) (ht : splitGo c0 sr 0 t = q :: qs) :
    splitGo c0 sr 0 (p ++ t) = (p ++ q) :: qs := by
  induction p with
  | nil => simpa using ht
  | cons c p' ih =>
    have hc : c ≠ c0 := hp c (List.mem_cons_self _ _)
    have hih := ih (fun c' hc' => hp c' (List.mem_cons_of_mem _ hc'))
    rw [List.cons_append, splitGo_cons_ne c0 sr c (p' ++ t) hc, hih]
    rfl

theorem splitGo_join (c0 : Char) (sr : Str) (parts : List Str) (hne : parts ≠ [])
    (hp : ∀ p ∈ parts, ∀ c ∈ p, c ≠ c0) :
    splitGo c0 sr 0 (py_join (c0 :: sr) parts) = parts := by
  induction parts with
  | nil => exact absurd rfl hne
  | cons p ps ih =>
    cases ps with
    | nil =>
      show splitGo c0 sr 0 p = [p]
      have h0 : splitGo c0 sr 0 ([] : Str) = [] :: [] := rfl
      have h := splitGo_append c0 sr p [] [] [] (hp p (List.mem_cons_self _ _)) h0
      rw [List.append_nil] at h
      exact h
    | cons p' ps' =>
      have hih : splitGo c0 sr 0 (py_join (c0 :: sr) (p' :: ps')) = p' :: ps' :=
        ih (by simp) (fun q hq => hp q (List.mem_cons_of_mem _ hq))
      have hsep : splitGo c0 sr 0 ((c0 :: sr) ++ py_join (c0 :: sr) (p' :: ps')) =
          [] :: (p' :: ps') := by
        rw [splitGo_sep, hih]
      have h := splitGo_append c0 sr p ((c0 :: sr) ++ py_join (c0 :: sr) (p' :: ps'))
        [] (p' :: ps') (hp p (List.mem_cons_self _ _)) hsep
      rw [List.append_nil] at h
      show splitGo c0 sr 0 (p ++ (c0 :: sr) ++ py_join (c0 :: sr) (p' :: ps')) = _
      rw [List.append_assoc]
      exact h

theorem mem_py_join (sep : Str) (parts : List Str) (c : Char)
    (hc : c ∈ py_join sep parts) : c ∈ sep ∨ ∃ p ∈ parts, c ∈ p := by
  induction parts with
  | nil => cases hc
  | cons p ps ih =>
    cases ps with
    | nil => exact Or.inr ⟨p, List.mem_cons_self _ _, hc⟩
    | cons p' ps' =>
      have hc' : c ∈ p ++ sep ++ py_join sep (p' :: ps') := hc
      simp only [List.mem_append] at hc'
      rcases hc' with (h1 | h2) | h3
      · exact Or.inr ⟨p, List.mem_cons_self _ _, h1⟩
      · exact Or.inl h2
      · rcases ih h3 with h | ⟨q, hq, hcq⟩
        · exact Or.inl h
        · exact Or.inr ⟨q, List.mem_cons_of_mem _ hq, hcq⟩

/-! ## Canonical-form character facts -/

theorem canonical_chars (code : Str) (hc : canonicalCode code) :
    ∀ c ∈ code, isLetterCh c = true ∨ isDigitCh c = true := by
  obtain ⟨hlen, hlet, hdig⟩ := hc
  intro c hcc
  have hmem : c ∈ code.take 2 ++ code.drop 2 := by
    rw [List.take_append_drop]
    exact hcc
  rcases List.mem_append.mp hmem with h | h
  · exact Or.inl (hlet c h)
  · exact Or.inr (hdig c h)

theorem letter_digit_ne (c : Char)
    (h : isLetterCh c = true ∨ isDigitCh c = true) : c ≠ ' ' ∧ c ≠ '+' := by
  refine ⟨fun he => ?_, fun he => ?_⟩ <;> subst he <;>
    rcases h with h | h <;> exact absurd h (by decide)

theorem serializeAtom_chars (a : Requirement) (hca : canonicalAtom a) :
    ∀ c ∈ serializeAtom a, c ≠ ' ' ∧ c ≠ '+' := by
  obtain ⟨hcode, hpart, _⟩ := hca
  intro c hc
  unfold serializeAtom at hc
  by_cases hp : a.isPartial = some true
  · rw [if_pos hp] at hc
    rcases List.mem_cons.mp hc with he | hc'
    · subst he
      exact ⟨by decide, by decide⟩
    · exact letter_digit_ne c (canonical_chars a.code hcode c hc')
  · rw [if_neg hp] at hc
    exact letter_digit_ne c (canonical_chars a.code hcode c hc)

theorem serializeGroup_no_space (g : List Requirement) (hall : ∀ a ∈ g, canonicalAtom a) :
    ∀ c ∈ serializeGroup g, c ≠ ' ' := by
  intro c hc
  unfold serializeGroup at hc
  rcases mem_py_join and_string _ c hc with h | ⟨p, hp, hcp⟩
  · have hand : and_string = ['+'] := rfl
    rw [hand] at h
    have : c = '+' := by simpa using h
    subst this
    decide
  · obtain ⟨a, ha, hae⟩ := List.mem_map.mp hp
    rw [← hae] at hcp
    exact (serializeAtom_chars a (hall a ha) c hcp).1

/-! ## Parsing serialized canonical expressions -/

theorem create_serializeAtom (a : Requirement) (hca : canonicalAtom a) :
    create_requirement (serializeAtom a) = some a := by
  obtain ⟨⟨hlen, _, _⟩, hpart, hsp⟩ := hca
  rcases a with ⟨code, ipart, sp⟩
  have hsp' : sp = none := hsp
  subst hsp'
  have hlen' : code.length = 5 := hlen
  rcases hpart with hp | hp
  · have hip : ipart = none := hp
    subst hip
    unfold serializeAtom
    rw [if_neg (by simp)]
    unfold create_requirement
    rw [if_pos (by show (code.length == 5) = true; rw [hlen']; rfl)]
  · have hip : ipart = some true := hp
    subst hip
    unfold serializeAtom
    rw [if_pos rfl]
    unfold create_requirement
    have h1 : is_discipline_code ('*' :: code) = false := by
      show (('*' :: code).length == 5) = false
      show (code.length + 1 == 5) = false
      rw [hlen']
      rfl
    rw [h1, if_neg Bool.false_ne_true]
    have h2 : (is_discipline_code (('*' :: code).drop 1) && headIsStar ('*' :: code)) = true := by
      show (is_discipline_code code && headIsStar ('*' :: code)) = true
      have ha : is_discipline_code code = true := by
        show (code.length == 5) = true
        rw [hlen']
        rfl
      have hb : headIsStar ('*' :: code) = true := rfl
      rw [ha, hb]
      rfl
    rw [if_pos h2]
    rfl

theorem seqOpt_serialize (g : List Requirement) (hall : ∀ a ∈ g, canonicalAtom a) :
    seqOpt ((g.map serializeAtom).map create_requirement) = some g := by
  induction g with
  | nil => rfl
  | cons a g' ih =>
    have hca : canonicalAtom a := hall a (List.mem_cons_self _ _)
    have hih := ih (fun a' ha' => hall a' (List.mem_cons_of_mem _ ha'))
    show seqOpt (create_requirement (serializeAtom a) ::
      (g'.map serializeAtom).map create_requirement) = some (a :: g')
    rw [create_serializeAtom a hca]
    show (seqOpt ((g'.map serializeAtom).map create_requirement)).map (a :: ·) = some (a :: g')
    rw [hih]
    rfl

theorem parse_group_serialized (g : List Requirement) (hgne : g ≠ [])
    (hall : ∀ a ∈ g, canonicalAtom a) :
    parse_group (serializeGroup g) = some g := by
  unfold parse_group
  have hand : and_string = '+' :: [] := rfl
  have hsplit : py_split and_string (serializeGroup g) = g.map serializeAtom := by
    unfold serializeGroup
    rw [hand]
    show splitGo '+' [] 0 (py_join ('+' :: []) (g.map serializeAtom)) = _
    apply splitGo_join
    · intro hmap
      exact hgne (List.map_eq_nil_iff.mp hmap)
    · intro p hp c hc
      obtain ⟨a, ha, hae⟩ := List.mem_map.mp hp
      rw [← hae] at hc
      exact (serializeAtom_chars a (hall a ha) c hc).2
  rw [hsplit]
  exact seqOpt_serialize g hall

theorem parse_groups_serialized (e : List (List Requirement))
    (hgs : ∀ g ∈ e, g ≠ [] ∧ ∀ a ∈ g, canonicalAtom a) :
    parse_groups (e.map serializeGroup) = some e := by
  induction e with
  | nil => rfl
  | cons g e' ih =>
    obtain ⟨hgne, hall⟩ := hgs g (List.mem_cons_self _ _)
    have hih := ih (fun g' hg' => hgs g' (List.mem_cons_of_mem _ hg'))
    show parse_groups (serializeGroup g :: e'.map serializeGroup) = some (g :: e')
    unfold parse_groups
    rw [parse_group_serialized g hgne hall, hih]
    rfl

theorem parse_serialized (e : List (List Requirement)) (hc : canonicalExpr e) :
    parse_requirements (serializeExpr e) = some e := by
  obtain ⟨hene, hgs⟩ := hc
  unfold parse_requirements
  have hor : or_string = ' ' :: 'o' :: 'u' :: ' ' :: [] := rfl
  have hsplit : py_split or_string (serializeExpr e) = e.map serializeGroup := by
    unfold serializeExpr
    rw [hor]
    show splitGo ' ' ('o' :: 'u' :: ' ' :: []) 0
      (py_join (' ' :: 'o' :: 'u' :: ' ' :: []) (e.map serializeGroup)) = _
    apply splitGo_join
    · intro hmap
      exact hene (List.map_eq_nil_iff.mp hmap)
    · intro p hp c hc'
      obtain ⟨g, hg, hge⟩ := List.mem_map.mp hp
      rw [← hge] at hc'
      exact serializeGroup_no_space g ((hgs g hg).2) c hc'
  rw [hsplit]
  exact parse_groups_serialized e hgs

/-! ## C8: round-trip stability of the grammar -/

/-- C8: for every raw prerequisite string valid under the grammar (nonempty
groups of canonical 2-letters-3-digits atoms, `*`-marked partials allowed,
joined by `+` within a group and `" ou "` between groups), parsing,
re-serializing the parsed expression and parsing again yields an expression
equal to the first parse. -/
theorem c8_round_trip (s : Str)
    (h : ∃ e, canonicalExpr e ∧ s = serializeExpr e) :
    ∃ e1, parse_requirements s = some e1 ∧
      parse_requirements (serializeExpr e1) = some e1 := by
  obtain ⟨e, hc, he⟩ := h
  subst he
  exact ⟨e, parse_serialized e hc, parse_serialized e hc⟩

theorem c8_round_trip_witness :
    ∃ e1, parse_requirements (serializeExpr exC8) = some e1 ∧
      parse_requirements (serializeExpr e1) = some e1 :=
  c8_round_trip (serializeExpr exC8) ⟨exC8, by decide, rfl⟩
